import Mathlib

/-!
Verification of the `uncomplicated-player` playback-queue core.

This file embeds, in Lean, the queue data structure of
`src/uncomplicated-player-queue.ts` (class `UncomplicatedPlayerQueue`) and the
player-ring resizing function `adjustPlayers` of `src/uncomplicated-player.ts`,
and proves / refutes the frozen claims about them.

Modelling conventions:
* Machine numbers are `Nat`/`Int` (keys and counters are small positive
  integers in the source; no overflow is possible in any scenario considered).
* The JS pool object `next : { [key: string]: Track }` has numeric-string keys
  (`key.toString()` of a positive integer), so JS `Object.keys` enumerates it
  in ascending numeric order.  The pool is therefore embedded as a
  `List Track` kept sorted by ascending `key` (`insertPool` inserts at the
  numeric position, overwriting an equal key exactly like a JS property
  write; `deleteKey` removes the property with the given key).
* `Math.random()` draws are embedded as explicit `Nat` parameters reduced
  modulo the relevant bound: `Math.floor(n * Math.random())` yields exactly
  the values `r % n` for arbitrary `r : Nat` (and the universally quantified
  parameter ranges over all of them).
* JS exceptions (`remove` can throw a `TypeError` inside `recursiveCompare`)
  are embedded with `Except Unit`; public operations record, in addition to
  the new state and return value, the list of mutation-callback tags fired
  during the call (in order), and whether the call threw.
* Track `src` values (JS `URL` objects) are embedded as strings; track `data`
  values as a tree of JS values (`JSVal`).  Exotic JS property lookups on
  primitive strings (index/`length` properties) are not modelled; no claim
  depends on them because the `remove` filter and all values it recurses into
  with a for-in loop are object-typed.
-/

/-- A JS value tree: the values that can appear in a track's `data` record and
in a `remove` filter. -/
inductive JSVal where
  | undef : JSVal
  | null : JSVal
  | bool : Bool → JSVal
  | num : Int → JSVal
  | str : String → JSVal
  | obj : List (String × JSVal) → JSVal
deriving Repr

mutual

/-- Structural (boolean) equality on JS values. -/
def JSVal.beq : JSVal → JSVal → Bool
  | .undef, .undef => true
  | .null, .null => true
  | .bool a, .bool b => a == b
  | .num a, .num b => a == b
  | .str a, .str b => a == b
  | .obj fs, .obj gs => beqFields fs gs
  | _, _ => false

/-- Structural equality on JS object field lists. -/
def beqFields : List (String × JSVal) → List (String × JSVal) → Bool
  | [], [] => true
  | (k, v) :: fs, (k', v') :: gs => k == k' && JSVal.beq v v' && beqFields fs gs
  | _, _ => false

end

mutual

theorem JSVal.beq_iff : ∀ a b : JSVal, JSVal.beq a b = true ↔ a = b
  | .undef, .undef => by simp [JSVal.beq]
  | .null, .null => by simp [JSVal.beq]
  | .bool _, .bool _ => by simp [JSVal.beq]
  | .num _, .num _ => by simp [JSVal.beq]
  | .str _, .str _ => by simp [JSVal.beq]
  | .obj fs, .obj gs => by
      simp only [JSVal.beq, beqFields_iff fs gs, JSVal.obj.injEq]
  | .undef, .null | .undef, .bool _ | .undef, .num _ | .undef, .str _ | .undef, .obj _
  | .null, .undef | .null, .bool _ | .null, .num _ | .null, .str _ | .null, .obj _
  | .bool _, .undef | .bool _, .null | .bool _, .num _ | .bool _, .str _ | .bool _, .obj _
  | .num _, .undef | .num _, .null | .num _, .bool _ | .num _, .str _ | .num _, .obj _
  | .str _, .undef | .str _, .null | .str _, .bool _ | .str _, .num _ | .str _, .obj _
  | .obj _, .undef | .obj _, .null | .obj _, .bool _ | .obj _, .num _ | .obj _, .str _ => by
      simp [JSVal.beq]

theorem beqFields_iff : ∀ fs gs : List (String × JSVal), beqFields fs gs = true ↔ fs = gs
  | [], [] => by simp [beqFields]
  | (k, v) :: fs, (k', v') :: gs => by
      simp [beqFields, JSVal.beq_iff v v', beqFields_iff fs gs, and_assoc]
  | [], (_, _) :: _ => by simp [beqFields]
  | (_, _) :: _, [] => by simp [beqFields]

end

instance : DecidableEq JSVal := fun a b => decidable_of_iff _ (JSVal.beq_iff a b)

/-- `typeof v === 'object'` — true for objects and for `null`. -/
def typeofIsObject : JSVal → Bool
  | .obj _ => true
  | .null => true
  | _ => false

/-- JS property read `original[key]`: own property of an object (or
`undefined` when absent), `undefined` on other primitives, and a thrown
`TypeError` (`.error`) when the receiver is `null`/`undefined`. -/
def getField : JSVal → String → Except Unit JSVal
  | .obj fs, k => .ok (((fs.find? (fun p => p.1 = k)).map Prod.snd).getD .undef)
  | .null, _ => .error ()
  | .undef, _ => .error ()
  | _, _ => .ok .undef

mutual

/-- `UncomplicatedPlayerQueue.recursiveCompare(original, comp)`
(uncomplicated-player-queue.ts lines 405-419): partial structural match of
`comp` against `original`.  The initial JS reference-equality shortcut
`comp === original` is embedded as structural equality; this is observationally
equivalent (structurally equal trees compare field-by-field to `true` without
throwing, and on primitives `===` is value equality).  The `for (const key in
comp)` loop only runs when `comp` is an object (in every call of the source,
`comp` is an object or `null`); reading `original[key]` throws when `original`
is `null`/`undefined`. -/
def recursiveCompare (original comp : JSVal) : Except Unit Bool :=
  if comp = original then .ok true
  else
    match comp with
    | .obj fields => compareFields original fields
    | _ => .ok true

/-- The body of `recursiveCompare`'s for-in loop over `comp`'s fields. -/
def compareFields (original : JSVal) : List (String × JSVal) → Except Unit Bool
  | [] => .ok true
  | (k, v) :: rest =>
    match getField original k with
    | .error e => .error e
    | .ok ov =>
      if typeofIsObject v then
        match recursiveCompare ov v with
        | .error e => .error e
        | .ok true => compareFields original rest
        | .ok false => .ok false
      else
        if v = ov then compareFields original rest else .ok false

end

/-- A queue track: `{ key, src, data }`.  `src` (a JS `URL`) is embedded as a
string. -/
structure Track where
  key : Nat
  src : String
  data : JSVal
deriving DecidableEq, Repr

/-- A track before insertion (no key yet). -/
structure PrimTrack where
  src : String
  data : JSVal
deriving DecidableEq, Repr

/-- The JS object view of a track, as passed to `recursiveCompare`:
`{ ...track, key }` has fields `src`, `data`, `key` in that insertion order. -/
def trackToJS (t : Track) : JSVal :=
  .obj [("src", .str t.src), ("data", t.data), ("key", .num t.key)]

/-- The queue state (`private queue: Queue` plus the scalar fields of
`UncomplicatedPlayerQueue`).  `next` is the pool, kept in ascending key order
(JS numeric-key enumeration order). -/
structure QState where
  history : List Track
  curr : Option Track
  nextSeek : List Track
  next : List Track
  shuffleQueue : Bool
  tracksKeyCounter : Nat
  seekSize : Nat
deriving DecidableEq, Repr

/-- The state built by the constructor. -/
def initQState : QState :=
  { history := [], curr := none, nextSeek := [], next := [],
    shuffleQueue := false, tracksKeyCounter := 0, seekSize := 3 }

/-- JS property write `next[key.toString()] = track`: insert at the ascending
numeric-key position, overwriting an existing entry with the same key. -/
def insertPool (t : Track) : List Track → List Track
  | [] => [t]
  | u :: rest =>
    if t.key < u.key then t :: u :: rest
    else if t.key = u.key then t :: rest
    else u :: insertPool t rest

/-- JS `delete next[key.toString()]`: remove the entry with the given key
(JS object keys are unique, so at most one entry matches). -/
def deleteKey (pool : List Track) (k : Nat) : List Track :=
  pool.filter (fun t => t.key != k)

/-- Swap the entries at positions `i` and `j` (identity when out of range):
`[keys[i], keys[random]] = [keys[random], keys[i]]`. -/
def swapIdx (l : List Track) (i j : Nat) : List Track :=
  match l.get? i, l.get? j with
  | some a, some b => (l.set i b).set j a
  | _, _ => l

/-- The partial Fisher–Yates loop of `refreshQueue`
(`for (let i = 0; i < needed; ++i) ... swap(keys[i], keys[random])` with
`random = Math.floor((keys.length - i) * Math.random()) + i`, i.e. a uniform
index in `[i, keys.length)` embedded as `i + r % (keys.length - i)`).
The loop is applied to the pool entries directly (keys and pool entries are
in bijection, in the same order). -/
def fyAux : List Track → Nat → List Nat → List Track
  | l, _, [] => l
  | l, i, r :: rs => fyAux (swapIdx l i (i + r % (l.length - i))) (i + 1) rs

/-- Run the partial Fisher–Yates shuffle for `needed` iterations, with the
random draws supplied by `rs` (a shorter `rs` corresponds to trailing
identity swaps, which plain Fisher–Yates can also produce). -/
def fyShuffle (l : List Track) (needed : Nat) (rs : List Nat) : List Track :=
  fyAux l 0 (rs.take needed)

/-- The inner `adjustNextSeek` closure of `refreshQueue`
(uncomplicated-player-queue.ts lines 425-458): trim an oversized lookahead
back into the pool, or refill an undersized lookahead from the pool
(sequentially, or through the partial Fisher–Yates shuffle when shuffle is
on).  Deletions are performed on the original pool by key
(`delete this.queue.next[key]`). -/
def adjustNextSeek (seekSize : Nat) (shuffleQueue : Bool) (nextSeek pool : List Track)
    (rs : List Nat) : List Track × List Track :=
  let nextSeekLen := nextSeek.length
  if seekSize < nextSeekLen then
    (nextSeek.take seekSize,
     (nextSeek.drop seekSize).foldl (fun p t => insertPool t p) pool)
  else if nextSeekLen < seekSize then
    let needed := min (seekSize - nextSeekLen) pool.length
    let arranged := if shuffleQueue then fyShuffle pool needed rs else pool
    let chosen := arranged.take needed
    (nextSeek ++ chosen, chosen.foldl (fun p t => deleteKey p t.key) pool)
  else (nextSeek, pool)

/-- The random draws a single `refreshQueue` call may consume: one stream for
each of the (at most two) `adjustNextSeek` invocations, and one draw for the
`seekSize == 0` direct pick of a new current track. -/
structure Rnd where
  r1 : List Nat
  r2 : List Nat
  rc : Nat

/-- `refreshQueue` (uncomplicated-player-queue.ts lines 424-488): settle the
lookahead, then (when there is no current track) settle `curr` — drawing it
straight from the pool when `seekSize == 0`, else popping the lookahead front
and re-adjusting the lookahead. -/
def refreshQueue (s : QState) (rz : Rnd) : QState :=
  let ns1p1 := adjustNextSeek s.seekSize s.shuffleQueue s.nextSeek s.next rz.r1
  let ns1 := ns1p1.1
  let p1 := ns1p1.2
  if 0 < s.seekSize ∧ ns1 = [] then
    { s with nextSeek := ns1, next := p1 }
  else
    match s.curr with
    | some c => { s with curr := some c, nextSeek := ns1, next := p1 }
    | none =>
      if s.seekSize = 0 ∧ 0 < p1.length then
        let idx := if s.shuffleQueue then rz.rc % p1.length else 0
        { s with curr := p1.get? idx, nextSeek := ns1, next := p1.eraseIdx idx }
      else
        let ns2p2 := adjustNextSeek s.seekSize s.shuffleQueue ns1.tail p1 rz.r2
        { s with curr := ns1.head?, nextSeek := ns2p2.1, next := ns2p2.2 }

/-- `push(track)` (lines 495-501): assign the next key, insert into the pool,
refresh, fire `push`.  Returns the key counter after the refresh (the
source's `return this.tracksKeyCounter`). -/
def push (s : QState) (t : PrimTrack) (rz : Rnd) : QState × Nat × List String :=
  let key := s.tracksKeyCounter + 1
  let s1 := { s with tracksKeyCounter := key,
                     next := insertPool { key := key, src := t.src, data := t.data } s.next }
  let s2 := refreshQueue s1 rz
  (s2, s2.tracksKeyCounter, ["push"])

/-- `pushMany(tracks)` (lines 509-519): assign sequential keys, insert all
into the pool, refresh once, fire `pushMany` (also when the input is empty). -/
def pushMany (s : QState) (ts : List PrimTrack) (rz : Rnd) :
    QState × List Track × List String :=
  let folded := ts.foldl
    (fun (acc : QState × List Track) t =>
      let key := acc.1.tracksKeyCounter + 1
      let tr : Track := { key := key, src := t.src, data := t.data }
      ({ acc.1 with tracksKeyCounter := key, next := insertPool tr acc.1.next },
       acc.2 ++ [tr]))
    (s, [])
  (refreshQueue folded.1 rz, folded.2, ["pushMany"])

/-- `addNext(track)` (lines 526-532): assign a key, prepend to the lookahead,
refresh, fire `addNext`. -/
def addNext (s : QState) (t : PrimTrack) (rz : Rnd) : QState × Nat × List String :=
  let key := s.tracksKeyCounter + 1
  let tr : Track := { key := key, src := t.src, data := t.data }
  let s1 := { s with tracksKeyCounter := key, nextSeek := tr :: s.nextSeek }
  (refreshQueue s1 rz, key, ["addNext"])

/-- `pop()` (lines 539-558): remove the last pool entry (largest key, the last
one in JS enumeration order) — firing no callback in that branch — else the
lookahead tail, else the current track, else return `-1`. -/
def pop (s : QState) : QState × Int × List String :=
  match (s.next.map (fun t => t.key)).getLast? with
  | some k => ({ s with next := deleteKey s.next k }, (k : Int), [])
  | none =>
    match s.nextSeek.getLast? with
    | some t => ({ s with nextSeek := s.nextSeek.dropLast }, (t.key : Int), ["pop"])
    | none =>
      match s.curr with
      | some c => ({ s with curr := none }, (c.key : Int), ["pop"])
      | none => (s, -1, [])

/-- One `Array.prototype.filter` pass with the `remove` predicate: keep the
tracks that do NOT match `search`, collect the keys of removed tracks in
order, propagate a thrown `TypeError`. -/
def filterTracksExc (search : JSVal) : List Track → Except Unit (List Track × List Int)
  | [] => .ok ([], [])
  | t :: rest =>
    match recursiveCompare (trackToJS t) search with
    | .error e => .error e
    | .ok true =>
      match filterTracksExc search rest with
      | .error e => .error e
      | .ok (kept, ks) => .ok (kept, (t.key : Int) :: ks)
    | .ok false =>
      match filterTracksExc search rest with
      | .error e => .error e
      | .ok (kept, ks) => .ok (t :: kept, ks)

/-- `remove(search)` (lines 566-614): filter the pool, then lookahead and
history (assigned together), then the current track, then refresh and fire
`remove`.  Returns the new state, the removed keys, the callback tags, and
whether the call threw.  A throw aborts the call, leaving exactly the
containers already reassigned (the pool is reassigned after its filter
completes; lookahead and history are destructuring-assigned together after
both filters complete; `curr` is cleared last). -/
def remove (s : QState) (search : JSVal) (rz : Rnd) :
    QState × List Int × List String × Bool :=
  match filterTracksExc search s.next with
  | .error _ => (s, [], [], true)
  | .ok (pool', ks1) =>
    let s1 := { s with next := pool' }
    match filterTracksExc search s.nextSeek with
    | .error _ => (s1, ks1, [], true)
    | .ok (ns', ks2) =>
      match filterTracksExc search s.history with
      | .error _ => (s1, ks1 ++ ks2, [], true)
      | .ok (h', ks3) =>
        let s2 := { s1 with nextSeek := ns', history := h' }
        match s.curr with
        | some c =>
          match recursiveCompare (trackToJS c) search with
          | .error _ => (s2, ks1 ++ ks2 ++ ks3, [], true)
          | .ok true =>
            let s3 := { s2 with curr := none }
            (refreshQueue s3 rz, ks1 ++ ks2 ++ ks3 ++ [(c.key : Int)], ["remove"], false)
          | .ok false =>
            (refreshQueue s2 rz, ks1 ++ ks2 ++ ks3, ["remove"], false)
        | none =>
          (refreshQueue s2 rz, ks1 ++ ks2 ++ ks3, ["remove"], false)

/-- `clear()` (lines 619-625): empty all containers, reset the key counter,
fire `clear` (unconditionally, also on an already-empty queue). -/
def clear (s : QState) : QState × List String :=
  ({ s with curr := none, nextSeek := [], history := [], next := [],
            tracksKeyCounter := 0 }, ["clear"])

/-- `get isNextEmpty` (lines 664-668). -/
def isNextEmpty (s : QState) : Bool :=
  if 0 < s.seekSize then s.nextSeek.isEmpty else s.next.isEmpty

/-- `next()` (lines 631-658): advance the playlist.  With an empty pool the
lookahead is exhausted directly (no callback fires in that branch); otherwise
a pool entry — the first, or a uniformly random one under shuffle — is
appended to the lookahead, the lookahead front becomes current, and `next`
fires. -/
def next (s : QState) (r : Nat) : QState × Option Track × List String :=
  if isNextEmpty s then (s, none, [])
  else if s.next.isEmpty then
    let s' := { s with history := s.history ++ s.curr.toList,
                       curr := s.nextSeek.head?,
                       nextSeek := s.nextSeek.tail }
    (s', s'.curr, [])
  else
    match (if s.shuffleQueue then s.next.get? (r % s.next.length) else s.next.head?) with
    | none => (s, none, [])
    | some t =>
      let ns := s.nextSeek ++ [t]
      let s' := { s with history := s.history ++ s.curr.toList,
                         curr := ns.head?,
                         nextSeek := ns.tail,
                         next := deleteKey s.next t.key }
      (s', s'.curr, ["next"])

/-- `prev()` (lines 674-689): return `null` when the history is empty;
otherwise prepend the current track (if any) to the lookahead, pop the
lookahead tail into the pool (unconditionally, whenever the lookahead is
then non-empty), pop the history tail into current, fire `prev`. -/
def prev (s : QState) : QState × Option Track × List String :=
  if s.history.isEmpty then (s, none, [])
  else
    let ns1 := s.curr.toList ++ s.nextSeek
    let poolAfter :=
      match ns1.getLast? with
      | some t => insertPool t s.next
      | none => s.next
    let currAfter :=
      match s.history.getLast? with
      | some t => some t
      | none => s.curr
    let s' := { s with nextSeek := ns1.dropLast, next := poolAfter,
                       curr := currAfter, history := s.history.dropLast }
    (s', s'.curr, ["prev"])

/-- `reset()` (lines 702-717): move history, lookahead and current back into
the pool, refresh, fire `reset`. -/
def reset (s : QState) (rz : Rnd) : QState × List String :=
  let pool1 := s.history.foldl (fun p t => insertPool t p) s.next
  let pool2 := s.nextSeek.foldl (fun p t => insertPool t p) pool1
  let pool3 :=
    match s.curr with
    | some c => insertPool c pool2
    | none => pool2
  let s1 := { s with history := [], curr := none, nextSeek := [], next := pool3 }
  (refreshQueue s1 rz, ["reset"])

/-- `set seekLength(len)` (lines 738-742) with a non-negative argument:
store the new seek size, refresh, fire `seekLength` (unconditionally, also
when `len` equals the current seek size). -/
def setSeekLength (s : QState) (len : Nat) (rz : Rnd) : QState × List String :=
  (refreshQueue { s with seekSize := len } rz, ["seekLength"])

/-- `setDefaultSeekLength()` (lines 768-772): reset the seek size to 3,
refresh, fire `setDefaultSeekLength`. -/
def setDefaultSeekLength (s : QState) (rz : Rnd) : QState × List String :=
  (refreshQueue { s with seekSize := 3 } rz, ["setDefaultSeekLength"])

/-- `set shuffle(shuffleEnable)` (lines 785-795): a no-op (no callback) when
the value is unchanged; otherwise flush the lookahead back into the pool,
refresh, fire `shuffle`. -/
def setShuffle (s : QState) (b : Bool) (rz : Rnd) : QState × List String :=
  if b = s.shuffleQueue then (s, [])
  else
    let pool' := s.nextSeek.foldl (fun p t => insertPool t p) s.next
    (refreshQueue { s with shuffleQueue := b, nextSeek := [], next := pool' } rz,
     ["shuffle"])

/-- All keys present in the queue state, container by container. -/
def allKeys (s : QState) : List Nat :=
  s.history.map (fun t => t.key) ++ (s.curr.toList).map (fun t => t.key) ++
    s.nextSeek.map (fun t => t.key) ++ s.next.map (fun t => t.key)

/-- States reachable from the freshly constructed queue through the public
mutating calls (`push`, `pushMany`, `addNext`, `pop`, `remove`, `clear`,
`next`, `prev`, `reset`, `set seekLength` with a non-negative argument,
`setDefaultSeekLength`, `set shuffle`), with arbitrary inputs and arbitrary
random draws. -/
inductive Reachable : QState → Prop where
  | init : Reachable initQState
  | push {s} (t : PrimTrack) (rz : Rnd) : Reachable s → Reachable (push s t rz).1
  | pushMany {s} (ts : List PrimTrack) (rz : Rnd) : Reachable s →
      Reachable (pushMany s ts rz).1
  | addNext {s} (t : PrimTrack) (rz : Rnd) : Reachable s → Reachable (addNext s t rz).1
  | pop {s} : Reachable s → Reachable (pop s).1
  | remove {s} (search : JSVal) (rz : Rnd) : Reachable s →
      Reachable (remove s search rz).1
  | clear {s} : Reachable s → Reachable (clear s).1
  | next {s} (r : Nat) : Reachable s → Reachable (next s r).1
  | prev {s} : Reachable s → Reachable (prev s).1
  | reset {s} (rz : Rnd) : Reachable s → Reachable (reset s rz).1
  | seekLen {s} (len : Nat) (rz : Rnd) : Reachable s → Reachable (setSeekLength s len rz).1
  | defaultSeekLen {s} (rz : Rnd) : Reachable s → Reachable (setDefaultSeekLength s rz).1
  | shuffle {s} (b : Bool) (rz : Rnd) : Reachable s → Reachable (setShuffle s b rz).1

/-- `Array.prototype.splice(start, deleteCount)` restricted to deletion
(ignoring the removed-elements return value): negative starts count from the
end, out-of-range values are clamped. -/
def jsSpliceDel (l : List α) (start delCount : Int) : List α :=
  let len : Int := l.length
  let actualStart := (if start < 0 then max (len + start) 0 else min start len).toNat
  let actualDel := (min (max delCount 0) (len - (actualStart : Int))).toNat
  l.take actualStart ++ l.drop (actualStart + actualDel)

/-- `adjustPlayers` (uncomplicated-player.ts lines 390-434), as a function of
the player-slot array, the stored `playersCount` and `_currentPlayer`, the
stored `config.prefetchSize` and the queue's (already updated) `seekLength`.
Slots are identified by values of an arbitrary type; `freshSlot` stands for a
newly constructed player (`createPlayer()`).  Returns the new slot array, the
new `config.prefetchSize` and the new `playersCount`.

Growth branch: the source pushes exactly ONE fresh slot and then re-creates
slots `0 .. playersCount-1` (`initPlayers` still uses the old
`playersCount`).  Shrink branch: splice out the right range (clamped to the
old `playersCount`), recompute the remaining difference, then splice out the
left range (JS `splice` semantics for a negative start). -/
def adjustPlayers (freshSlot : α) (players : List α)
    (playersCount currentPlayer configPrefetchSize queueSeekLength : Nat) :
    List α × Nat × Nat :=
  if configPrefetchSize = queueSeekLength then (players, configPrefetchSize, playersCount)
  else
    let players' :=
      if (0 : Int) < 2 * (queueSeekLength : Int) + 1 - (playersCount : Int) then
        (players ++ [freshSlot]).mapIdx
          (fun i p => if i < playersCount then freshSlot else p)
      else
        let diff0 : Int := (2 * (queueSeekLength : Int) + 1 - (playersCount : Int)).natAbs
        let clamp : Int → Int := fun idx =>
          if (playersCount : Int) ≤ idx then (playersCount : Int) else idx
        let right0 := clamp ((currentPlayer : Int) + (queueSeekLength : Int) + 1)
        let right1 := clamp ((currentPlayer : Int) + (queueSeekLength : Int) + 1 + diff0)
        let players2 := jsSpliceDel players right0 (right1 - right0)
        let diff1 : Int := (2 * (queueSeekLength : Int) + 1 - (players2.length : Int)).natAbs
        let left1 : Int := (currentPlayer : Int) - (queueSeekLength : Int) - 1
        let left0 : Int := left1 - diff1 + 1
        if left0 < 0 then
          jsSpliceDel (jsSpliceDel players2 left0 diff1) 0 (left1 + 1)
        else
          jsSpliceDel players2 left0 (left1 - left0 + 1)
    (players', queueSeekLength, 2 * queueSeekLength + 1)

/-- Empty randomness: with shuffle off no draw is consumed, so any value works
for deterministic runs. -/
def rzNil : Rnd := ⟨[], [], 0⟩

/-- A concrete primitive track. -/
def trackA : PrimTrack := ⟨"a", .obj []⟩

/-- A second concrete primitive track. -/
def trackB : PrimTrack := ⟨"b", .obj []⟩

/-- One push on the fresh queue: current = track 1, everything else empty. -/
def qs1 : QState := (push initQState trackA rzNil).1

/-- Two pushes: current = track 1, lookahead = [track 2]. -/
def qs2 : QState := (push qs1 trackB rzNil).1

/-- `qs2` then `next()`: current = track 2, history = [track 1]. -/
def qs3 : QState := (next qs2 0).1

/-- `qs3` then `prev()`: current = track 1, pool = [track 2], lookahead empty
even though the seek size is 3 — the state exposing the unconditional
`prev()` eviction. -/
def qs4 : QState := (prev qs3).1

/-- Five pushes on the fresh queue: current = track 1, lookahead = tracks
2..4, pool = [track 5]. -/
def qs5 : QState :=
  (push (push (push (push qs1 trackA rzNil).1 trackA rzNil).1 trackA rzNil).1 trackA rzNil).1

/-- The settle invariant: the lookahead never exceeds the seek size, and the
current track is absent only when both the pool and the lookahead are empty. -/
def SettleInv (s : QState) : Prop :=
  s.nextSeek.length ≤ s.seekSize ∧ (s.curr = none → s.next = [] ∧ s.nextSeek = [])

/-- The key-uniqueness invariant: all keys in the queue are pairwise distinct,
positive, and bounded by the key counter. -/
def KeysInv (s : QState) : Prop :=
  (allKeys s).Nodup ∧ ∀ k ∈ allKeys s, 1 ≤ k ∧ k ≤ s.tracksKeyCounter

/-- Claim C7 (confirmed): `pop()` removes the last pool entry in iteration
order when the pool is non-empty, else the lookahead tail, else the current
track, and returns -1 exactly when pool, lookahead and current are all empty
(in which case the state is unchanged and no callback fires). -/
theorem pop_priority (s : QState) :
    (∀ t : Track, s.next.getLast? = some t →
        pop s = ({ s with next := deleteKey s.next t.key }, (t.key : Int), [])) ∧
    (s.next = [] → ∀ t : Track, s.nextSeek.getLast? = some t →
        pop s = ({ s with nextSeek := s.nextSeek.dropLast }, (t.key : Int), ["pop"])) ∧
    (s.next = [] → s.nextSeek = [] → ∀ c : Track, s.curr = some c →
        pop s = ({ s with curr := none }, (c.key : Int), ["pop"])) ∧
    ((pop s).2.1 = -1 ↔ s.next = [] ∧ s.nextSeek = [] ∧ s.curr = none) ∧
    ((pop s).2.1 = -1 → (pop s).1 = s) := by
  unfold pop
  rw [List.getLast?_map]
  rcases hnext : s.next.getLast? with _ | t
  · have hn : s.next = [] := List.getLast?_eq_none_iff.mp hnext
    rcases hns : s.nextSeek.getLast? with _ | u
    · have hseek : s.nextSeek = [] := List.getLast?_eq_none_iff.mp hns
      rcases hc : s.curr with _ | c
      · refine ⟨?_, ?_, ?_, ?_, ?_⟩
        · intro t ht; simp at ht
        · intro _ t ht; simp at ht
        · intro _ _ c hc'; simp at hc'
        · simp [hn, hseek]
        · intro _; rfl
      · refine ⟨?_, ?_, ?_, ?_, ?_⟩
        · intro t ht; simp at ht
        · intro _ t ht; simp at ht
        · intro _ _ c' hc'
          cases hc'
          rfl
        · simp [hn, hseek]
        · intro h; simp at h
    · refine ⟨?_, ?_, ?_, ?_, ?_⟩
      · intro t ht; simp at ht
      · intro _ t ht
        cases ht
        rfl
      · intro _ hseek
        rw [hseek] at hns
        simp at hns
      · constructor
        · intro h; simp at h
        · rintro ⟨-, h2, -⟩
          rw [h2] at hns
          simp at hns
      · intro h; simp at h
  · refine ⟨?_, ?_, ?_, ?_, ?_⟩
    · intro t' ht
      cases ht
      rfl
    · intro hn
      rw [hn] at hnext
      simp at hnext
    · intro hn _
      rw [hn] at hnext
      simp at hnext
    · constructor
      · intro h; simp at h
      · rintro ⟨h1, -, -⟩
        rw [h1] at hnext
        simp at hnext
    · intro h; simp at h

theorem pop_priority_witness :
    pop qs5 = ({ qs5 with next := deleteKey qs5.next 5 }, (5 : Int), []) :=
  (pop_priority qs5).1 ⟨5, "a", .obj []⟩ (by decide)

/-- Claim C2, counterexample: popping from a five-track pool changes the state
(the pool loses the key-5 entry, which is returned) yet fires no callback,
refuting the spec sentence that every state-changing call invokes the callback
exactly once. -/
theorem pop_pool_change_no_callback :
    (pop qs5).1 ≠ qs5 ∧ (pop qs5).2.1 = 5 ∧ (pop qs5).2.2 = [] := by decide

/-- Claim C3, counterexample: on `qs2` (current plus one lookahead track, empty
pool) `next()` then `prev()` restores `current` but leaves the lookahead shorter
than before, refuting the spec sentence that the lengths of history and
lookahead equal their pre-next values. -/
theorem next_prev_lookahead_not_restored :
    ((next qs2 0).2.1).isSome = true ∧
    (prev (next qs2 0).1).1.curr = qs2.curr ∧
    (prev (next qs2 0).1).1.nextSeek.length ≠ qs2.nextSeek.length := by decide

/-- Claim C4, counterexample: on `qs3` the prepended lookahead has length 2,
within `seekSize = 3`, yet `prev()` still evicts its tail into the pool and the
lookahead shrinks, refuting the spec sentence that no lookahead entry is
evicted when the lookahead does not exceed seekSize. -/
theorem prev_evicts_within_seekSize :
    qs3.history ≠ [] ∧
    (qs3.curr.toList ++ qs3.nextSeek).length ≤ qs3.seekSize ∧
    (prev qs3).1.next ≠ [] := by decide

/-- Claim C5, counterexample: `qs4` has a non-empty pool, yet `next()` returns
null and changes nothing, refuting the spec sentence that whenever some track
exists ahead, in lookahead or pool, next returns a non-null new current. -/
theorem next_none_despite_pool :
    qs4.next ≠ [] ∧ (next qs4 0).2.1 = none ∧ (next qs4 0).1 = qs4 := by decide

/-- Claim C6 (code bug): growing the ring from `prefetchSize = 3` (7 slots)
to `seekLength = 4` pushes only one fresh slot, leaving 8 slots while setting
`playersCount` to 9; the required `2*newSeekSize+1 = 9` slot count is violated
(and the stored count disagrees with the array length). -/
theorem adjustPlayers_grow_wrong_count :
    (adjustPlayers (0 : Nat) [0, 1, 2, 3, 4, 5, 6] 7 0 3 4).1.length = 8 ∧
    (adjustPlayers (0 : Nat) [0, 1, 2, 3, 4, 5, 6] 7 0 3 4).2.2 = 9 ∧
    (8 : Nat) ≠ 2 * 4 + 1 := by decide

/-- Claim C8 (code bug): `remove` with a nested filter — object field data
holding field a holding field b — on a queue whose only track has an empty data
object throws (recursiveCompare reads a property of JS undefined), leaving the
queue mid-mutation, refuting the spec sentence that remove terminates normally
for every filter object. -/
theorem remove_nested_filter_throws :
    (remove qs1 (.obj [("data", .obj [("a", .obj [("b", .num 1)])])]) rzNil).2.2.2 = true ∧
    (remove qs1 (.obj [("data", .obj [("a", .obj [("b", .num 1)])])]) rzNil).1 = qs1 := by
  decide

theorem recursiveCompare_emptyObj (x : JSVal) : recursiveCompare x (.obj []) = .ok true := by
  unfold recursiveCompare
  split
  · rfl
  · rfl

theorem filterTracksExc_emptyObj (ts : List Track) :
    filterTracksExc (.obj []) ts = .ok ([], ts.map (fun t => (t.key : Int))) := by
  induction ts with
  | nil => rfl
  | cons t rest ih =>
    simp only [filterTracksExc, recursiveCompare_emptyObj, ih, List.map_cons]

theorem adjustNextSeek_nil (k : Nat) (sh : Bool) (rs : List Nat) :
    adjustNextSeek k sh [] [] rs = ([], []) := by
  simp [adjustNextSeek]

theorem refreshQueue_all_empty (s : QState) (rz : Rnd) (h1 : s.next = [])
    (h2 : s.nextSeek = []) (h3 : s.curr = none) (h4 : s.history = []) :
    refreshQueue s rz = s := by
  obtain ⟨hh, cc, ns, nx, sh, ctr, k⟩ := s
  simp only at h1 h2 h3 h4
  subst h1 h2 h3 h4
  cases k with
  | zero => rfl
  | succ k =>
      simp [refreshQueue, adjustNextSeek]

/-- Claim C10 (confirmed): `remove` with the empty filter object matches every
track: it empties pool, lookahead, history and current, never throws, and
returns the keys of all tracks that were present (pool, then lookahead, then
history, then current). -/
theorem remove_empty_filter (s : QState) (rz : Rnd) :
    (remove s (.obj []) rz).1.history = [] ∧
    (remove s (.obj []) rz).1.curr = none ∧
    (remove s (.obj []) rz).1.nextSeek = [] ∧
    (remove s (.obj []) rz).1.next = [] ∧
    (remove s (.obj []) rz).2.2.2 = false ∧
    (remove s (.obj []) rz).2.1 =
      s.next.map (fun t => (t.key : Int)) ++ s.nextSeek.map (fun t => (t.key : Int)) ++
        s.history.map (fun t => (t.key : Int)) ++
        (s.curr.toList).map (fun t => (t.key : Int)) := by
  unfold remove
  rw [filterTracksExc_emptyObj, filterTracksExc_emptyObj, filterTracksExc_emptyObj]
  rcases hc : s.curr with _ | c
  · dsimp only
    rw [refreshQueue_all_empty _ _ rfl rfl rfl rfl]
    simp
  · dsimp only
    rw [recursiveCompare_emptyObj]
    dsimp only
    rw [refreshQueue_all_empty _ _ rfl rfl rfl rfl]
    simp

/-- Claim C4 (corrected): `prev()` on an empty history returns null and changes
nothing; otherwise it moves the history tail into `current`, prepends the old
`current` to the lookahead, and ALWAYS evicts the tail of the prepended lookahead
into the pool (when that list is non-empty) — the eviction is not guarded by the
lookahead exceeding `seekSize`. -/
theorem prev_spec (s : QState) :
    (s.history = [] → prev s = (s, none, [])) ∧
    (s.history ≠ [] →
      (prev s).2.1 = s.history.getLast? ∧
      (prev s).1.curr = s.history.getLast? ∧
      (prev s).1.history = s.history.dropLast ∧
      (prev s).1.nextSeek = (s.curr.toList ++ s.nextSeek).dropLast ∧
      (s.curr.toList ++ s.nextSeek = [] → (prev s).1.next = s.next) ∧
      (∀ t : Track, (s.curr.toList ++ s.nextSeek).getLast? = some t →
        (prev s).1.next = insertPool t s.next)) := by
  constructor
  · intro h
    simp [prev, h]
  · intro h
    rcases List.eq_nil_or_concat s.history with h0 | ⟨l, a, hl⟩
    · exact absurd h0 h
    · rw [hl]
      refine ⟨?_, ?_, ?_, ?_, ?_, ?_⟩
      · simp [prev, hl, List.getLast?_concat]
      · simp [prev, hl, List.getLast?_concat]
      · simp [prev, hl, List.getLast?_concat, List.dropLast_concat]
      · simp [prev, hl]
      · intro h5
        simp [prev, hl, h5]
      · intro t ht
        simp [prev, hl, ht]

theorem prev_spec_witness :
    (prev qs3).2.1 = some ⟨1, "a", .obj []⟩ ∧
    (prev qs3).1.next = insertPool ⟨2, "b", .obj []⟩ qs3.next := by
  have h := (prev_spec qs3).2 (by decide)
  exact ⟨h.1.trans (by decide), h.2.2.2.2.2 ⟨2, "b", .obj []⟩ (by decide)⟩

/-- Claim C2 (corrected): the exact callback rule per operation.  `push`,
`pushMany`, `addNext`, `clear`, `reset`, the `seekLength` setter and
`setDefaultSeekLength` fire their tag exactly once even when the call leaves the
state unchanged (clear of an empty queue, seekLength set to the current value);
a non-throwing `remove` always fires once; `pop` fires only when it removes from
the lookahead or current — removing a pool entry changes the state but fires
nothing; `next` fires only when it advances with a non-empty pool; `prev` fires
iff history is non-empty; `shuffle` fires iff the flag actually changes. -/
theorem mutation_callback_spec (s : QState) (t : PrimTrack) (ts : List PrimTrack)
    (search : JSVal) (len : Nat) (b : Bool) (r : Nat) (rz : Rnd) :
    (push s t rz).2.2 = ["push"] ∧
    (pushMany s ts rz).2.2 = ["pushMany"] ∧
    (addNext s t rz).2.2 = ["addNext"] ∧
    (clear s).2 = ["clear"] ∧
    (reset s rz).2 = ["reset"] ∧
    (setSeekLength s len rz).2 = ["seekLength"] ∧
    (setDefaultSeekLength s rz).2 = ["setDefaultSeekLength"] ∧
    (remove s search rz).2.2.1 =
      (if (remove s search rz).2.2.2 then [] else ["remove"]) ∧
    (pop s).2.2 = (if s.next = [] ∧ (s.nextSeek ≠ [] ∨ s.curr ≠ none) then ["pop"] else []) ∧
    (next s r).2.2 = (if isNextEmpty s = false ∧ s.next ≠ [] then ["next"] else []) ∧
    (prev s).2.2 = (if s.history = [] then [] else ["prev"]) ∧
    (setShuffle s b rz).2 = (if b = s.shuffleQueue then [] else ["shuffle"]) := by
  refine ⟨rfl, rfl, rfl, rfl, rfl, rfl, rfl, ?_, ?_, ?_, ?_, ?_⟩
  · unfold remove
    rcases filterTracksExc search s.next with _ | ⟨p, k1⟩
    · rfl
    · rcases filterTracksExc search s.nextSeek with _ | ⟨p2, k2⟩
      · rfl
      · rcases filterTracksExc search s.history with _ | ⟨p3, k3⟩
        · rfl
        · rcases s.curr with _ | c
          · rfl
          · rcases hrc : recursiveCompare (trackToJS c) search with e | bv
            · simp [hrc]
            · rcases bv with _ | _ <;> simp [hrc]
  · unfold pop
    rw [List.getLast?_map]
    rcases hnext : s.next.getLast? with _ | u
    · have hn : s.next = [] := List.getLast?_eq_none_iff.mp hnext
      rcases hns : s.nextSeek.getLast? with _ | v
      · have hsk : s.nextSeek = [] := List.getLast?_eq_none_iff.mp hns
        rcases hc : s.curr with _ | c
        · simp [hn, hsk, hc]
        · simp [hn, hsk, hc]
      · have hsk : s.nextSeek ≠ [] := by
          intro h0
          rw [h0] at hns
          simp at hns
        simp [hn, hsk]
    · have hn : s.next ≠ [] := by
        intro h0
        rw [h0] at hnext
        simp at hnext
      simp [hn]
  · unfold next
    rcases hie : isNextEmpty s with _ | _
    · rcases hne : s.next.isEmpty with _ | _
      · have hn : s.next ≠ [] := by
          intro h0
          rw [h0] at hne
          simp at hne
        rcases hpick : (if s.shuffleQueue then s.next.get? (r % s.next.length)
            else s.next.head?) with _ | u
        · exfalso
          rcases hsh : s.shuffleQueue with _ | _
          · rw [hsh] at hpick
            simp only [if_neg Bool.false_ne_true] at hpick
            rw [List.head?_eq_none_iff] at hpick
            exact hn hpick
          · rw [hsh] at hpick
            simp only [if_pos] at hpick
            rw [List.get?_eq_none] at hpick
            have : r % s.next.length < s.next.length :=
              Nat.mod_lt _ (List.length_pos.mpr hn)
            omega
        · simp [hie, hn, hpick]
      · have hn : s.next = [] := by
          rwa [List.isEmpty_iff] at hne
        simp [hie, hne, hn]
    · have : ¬ (isNextEmpty s = false) := by simp [hie]
      simp [hie, this]
  · unfold prev
    rcases hh : s.history.isEmpty with _ | _
    · have hn : s.history ≠ [] := by
        intro h0
        rw [h0] at hh
        simp at hh
      simp [hh, hn]
    · have hn : s.history = [] := by rwa [List.isEmpty_iff] at hh
      simp [hh, hn]
  · unfold setShuffle
    by_cases hb : b = s.shuffleQueue <;> simp [hb]

theorem swapIdx_length (l : List Track) (i j : Nat) : (swapIdx l i j).length = l.length := by
  unfold swapIdx
  split <;> simp

theorem fyAux_length (rs : List Nat) : ∀ (l : List Track) (i : Nat),
    (fyAux l i rs).length = l.length := by
  induction rs with
  | nil => intro l i; rfl
  | cons r rs ih =>
    intro l i
    rw [fyAux, ih, swapIdx_length]

theorem fyShuffle_length (l : List Track) (needed : Nat) (rs : List Nat) :
    (fyShuffle l needed rs).length = l.length :=
  fyAux_length _ _ _

theorem adjustNextSeek_fst_length (k : Nat) (sh : Bool) (ns p : List Track) (rs : List Nat) :
    (adjustNextSeek k sh ns p rs).1.length ≤ k := by
  unfold adjustNextSeek
  dsimp only
  by_cases h1 : k < ns.length
  · rw [if_pos h1]
    simp only [List.length_take]
    omega
  · rw [if_neg h1]
    by_cases h2 : ns.length < k
    · rw [if_pos h2]
      by_cases hsh : sh = true
      · rw [if_pos hsh]
        simp only [List.length_append, List.length_take, fyShuffle_length]
        omega
      · rw [if_neg hsh]
        simp only [List.length_append, List.length_take]
        omega
    · rw [if_neg h2]
      exact (by omega : ns.length ≤ k)

theorem adjustNextSeek_fst_nil (k : Nat) (sh : Bool) (ns p : List Track) (rs : List Nat)
    (hk : 0 < k) (h : (adjustNextSeek k sh ns p rs).1 = []) :
    (adjustNextSeek k sh ns p rs).2 = [] ∧ p = [] ∧ ns = [] := by
  revert h
  unfold adjustNextSeek
  dsimp only
  by_cases h1 : k < ns.length
  · rw [if_pos h1]
    intro h
    have hlen := congrArg List.length h
    simp only [List.length_take, List.length_nil] at hlen
    omega
  · rw [if_neg h1]
    by_cases h2 : ns.length < k
    · rw [if_pos h2]
      intro h
      rcases List.append_eq_nil.mp h with ⟨hns, hch⟩
      have hchlen := congrArg List.length hch
      have harr : (if sh = true then fyShuffle p (min (k - ns.length) p.length) rs
          else p).length = p.length := by
        by_cases hsh : sh = true
        · rw [if_pos hsh, fyShuffle_length]
        · rw [if_neg hsh]
      rw [List.length_take, harr, List.length_nil] at hchlen
      have hlen0 : ns.length = 0 := by rw [hns]; rfl
      have hp : p.length = 0 := by omega
      have hpnil : p = [] := List.length_eq_zero.mp hp
      subst hpnil hns
      exact ⟨by simp only [hch, List.foldl_nil], rfl, rfl⟩
    · rw [if_neg h2]
      intro h
      exfalso
      have hk2 : ns.length = k := by omega
      have h' : ns = [] := h
      rw [h'] at hk2
      simp at hk2
      omega

theorem refreshQueue_history (s : QState) (rz : Rnd) :
    (refreshQueue s rz).history = s.history := by
  unfold refreshQueue
  dsimp only
  repeat' split
  all_goals rfl

theorem refreshQueue_tracksKeyCounter (s : QState) (rz : Rnd) :
    (refreshQueue s rz).tracksKeyCounter = s.tracksKeyCounter := by
  unfold refreshQueue
  dsimp only
  repeat' split
  all_goals rfl

theorem refreshQueue_seekSize (s : QState) (rz : Rnd) :
    (refreshQueue s rz).seekSize = s.seekSize := by
  unfold refreshQueue
  dsimp only
  repeat' split
  all_goals rfl

theorem refreshQueue_shuffleQueue (s : QState) (rz : Rnd) :
    (refreshQueue s rz).shuffleQueue = s.shuffleQueue := by
  unfold refreshQueue
  dsimp only
  repeat' split
  all_goals rfl

theorem refreshQueue_settleInv (s : QState) (rz : Rnd) : SettleInv (refreshQueue s rz) := by
  unfold refreshQueue SettleInv
  dsimp only
  by_cases hA : 0 < s.seekSize ∧
      (adjustNextSeek s.seekSize s.shuffleQueue s.nextSeek s.next rz.r1).1 = []
  · rw [if_pos hA]
    have hnil := adjustNextSeek_fst_nil _ _ _ _ _ hA.1 hA.2
    constructor
    · simp [hA.2]
    · intro _
      exact ⟨hnil.1, hA.2⟩
  · rw [if_neg hA]
    cases hc : s.curr with
    | some c =>
      constructor
      · simpa using adjustNextSeek_fst_length s.seekSize s.shuffleQueue s.nextSeek s.next rz.r1
      · intro hno
        simp at hno
    | none =>
      by_cases hB : s.seekSize = 0 ∧
          0 < (adjustNextSeek s.seekSize s.shuffleQueue s.nextSeek s.next rz.r1).2.length
      · rw [if_pos hB]
        constructor
        · simpa using adjustNextSeek_fst_length s.seekSize s.shuffleQueue s.nextSeek s.next rz.r1
        · intro hcurr
          exfalso
          have hlt : (if s.shuffleQueue then rz.rc %
              (adjustNextSeek s.seekSize s.shuffleQueue s.nextSeek s.next rz.r1).2.length
              else 0) <
              (adjustNextSeek s.seekSize s.shuffleQueue s.nextSeek s.next rz.r1).2.length := by
            split
            · exact Nat.mod_lt _ hB.2
            · exact hB.2
          simp only [List.get?_eq_get hlt] at hcurr
          simp at hcurr
      · rw [if_neg hB]
        constructor
        · simpa using adjustNextSeek_fst_length s.seekSize s.shuffleQueue
            (adjustNextSeek s.seekSize s.shuffleQueue s.nextSeek s.next rz.r1).1.tail
            (adjustNextSeek s.seekSize s.shuffleQueue s.nextSeek s.next rz.r1).2 rz.r2
        · intro hcurr
          simp only at hcurr
          have h11 : (adjustNextSeek s.seekSize s.shuffleQueue s.nextSeek s.next rz.r1).1 = [] := by
            rw [← List.head?_eq_none_iff]
            simpa using hcurr
          have hk0 : s.seekSize = 0 := by
            by_contra hk
            exact hA ⟨Nat.pos_of_ne_zero hk, h11⟩
          have hp2 : (adjustNextSeek s.seekSize s.shuffleQueue s.nextSeek s.next rz.r1).2 = [] := by
            have h2 : ¬ 0 < (adjustNextSeek s.seekSize s.shuffleQueue s.nextSeek s.next
                rz.r1).2.length := fun h => hB ⟨hk0, h⟩
            have := Nat.eq_zero_of_not_pos h2
            rwa [List.length_eq_zero] at this
          rw [h11, hp2]
          simp [adjustNextSeek_nil]

theorem filterTracksExc_sublist (search : JSVal) :
    ∀ (ts kept : List Track) (ks : List Int),
      filterTracksExc search ts = .ok (kept, ks) → kept.Sublist ts := by
  intro ts
  induction ts with
  | nil =>
    intro kept ks h
    unfold filterTracksExc at h
    cases h
    exact List.Sublist.refl _
  | cons t rest ih =>
    intro kept ks h
    unfold filterTracksExc at h
    rcases hrc : recursiveCompare (trackToJS t) search with e | bv
    · rw [hrc] at h; cases h
    · rw [hrc] at h
      rcases bv with _ | _
      · rcases hrec : filterTracksExc search rest with e | ⟨kept', ks'⟩
        · rw [hrec] at h; cases h
        · rw [hrec] at h
          cases h
          exact List.Sublist.cons₂ t (ih _ _ hrec)
      · rcases hrec : filterTracksExc search rest with e | ⟨kept', ks'⟩
        · rw [hrec] at h; cases h
        · rw [hrec] at h
          cases h
          exact List.Sublist.cons t (ih _ _ hrec)

theorem settleInv_pop (s : QState) (h : SettleInv s) : SettleInv (pop s).1 := by
  obtain ⟨h1, h2⟩ := h
  unfold pop
  rw [List.getLast?_map]
  rcases hnext : s.next.getLast? with _ | u0
  · simp only [Option.map_none']
    rcases hns : s.nextSeek.getLast? with _ | u
    · rcases hc : s.curr with _ | c
      · exact ⟨h1, h2⟩
      · refine ⟨h1, fun _ => ?_⟩
        exact ⟨List.getLast?_eq_none_iff.mp hnext, List.getLast?_eq_none_iff.mp hns⟩
    · refine ⟨?_, fun hcur => ?_⟩
      · show s.nextSeek.dropLast.length ≤ s.seekSize
        have := List.length_dropLast s.nextSeek
        omega
      · exfalso
        have hcur' : s.curr = none := hcur
        rcases h2 hcur' with ⟨-, hsk⟩
        rw [hsk] at hns
        simp at hns
  · simp only [Option.map_some']
    refine ⟨h1, fun hcur => ?_⟩
    exfalso
    have hcur' : s.curr = none := hcur
    rcases h2 hcur' with ⟨hn, -⟩
    rw [hn] at hnext
    simp at hnext

theorem settleInv_clear (s : QState) : SettleInv (clear s).1 :=
  ⟨by simp [clear], fun _ => ⟨rfl, rfl⟩⟩

theorem settleInv_next (s : QState) (h : SettleInv s) (r : Nat) : SettleInv (next s r).1 := by
  obtain ⟨h1, h2⟩ := h
  unfold next
  by_cases hie : isNextEmpty s = true
  · rw [if_pos hie]
    exact ⟨h1, h2⟩
  · rw [if_neg hie]
    by_cases hne : s.next.isEmpty = true
    · rw [if_pos hne]
      have hseek : 0 < s.seekSize ∧ s.nextSeek ≠ [] := by
        unfold isNextEmpty at hie
        split at hie
        · exact ⟨by assumption, fun h0 => hie (by simp [h0])⟩
        · exact absurd hne hie
      refine ⟨?_, fun hcur => ?_⟩
      · dsimp only
        have := List.length_tail s.nextSeek
        omega
      · dsimp only at hcur
        exfalso
        rw [List.head?_eq_none_iff] at hcur
        exact hseek.2 hcur
    · rw [if_neg hne]
      rcases hpick : (if s.shuffleQueue then s.next.get? (r % s.next.length)
          else s.next.head?) with _ | u
      · exact ⟨h1, h2⟩
      · refine ⟨?_, fun hcur => ?_⟩
        · dsimp only
          simp only [List.length_tail, List.length_append, List.length_cons,
            List.length_nil]
          omega
        · dsimp only at hcur
          exfalso
          rw [List.head?_eq_none_iff] at hcur
          simp at hcur

theorem settleInv_prev (s : QState) (h : SettleInv s) : SettleInv (prev s).1 := by
  obtain ⟨h1, h2⟩ := h
  unfold prev
  by_cases hh : s.history.isEmpty = true
  · rw [if_pos hh]
    exact ⟨h1, h2⟩
  · rw [if_neg hh]
    refine ⟨?_, fun hcur => ?_⟩
    · show (s.curr.toList ++ s.nextSeek).dropLast.length ≤ s.seekSize
      rcases hc : s.curr with _ | c <;>
        simp [hc, List.length_dropLast] <;> omega
    · exfalso
      have hcur' : (match s.history.getLast? with
          | some t => some t
          | none => s.curr) = none := hcur
      rcases hl : s.history.getLast? with _ | u
      · rw [List.getLast?_eq_none_iff] at hl
        rw [hl] at hh
        simp at hh
      · rw [hl] at hcur'
        simp at hcur'

theorem settleInv_remove (s : QState) (h : SettleInv s) (search : JSVal) (rz : Rnd) :
    SettleInv (remove s search rz).1 := by
  obtain ⟨h1, h2⟩ := h
  unfold remove
  rcases hf1 : filterTracksExc search s.next with e | ⟨p1, k1⟩
  · exact ⟨h1, h2⟩
  · have hs1 : SettleInv { s with next := p1 } := by
      refine ⟨h1, fun hcur => ?_⟩
      have hcur' : s.curr = none := hcur
      rcases h2 hcur' with ⟨hn, hsk⟩
      rw [hn] at hf1
      unfold filterTracksExc at hf1
      cases hf1
      exact ⟨rfl, hsk⟩
    rcases hf2 : filterTracksExc search s.nextSeek with e | ⟨p2, k2⟩
    · exact hs1
    · rcases hf3 : filterTracksExc search s.history with e | ⟨p3, k3⟩
      · exact hs1
      · have hp2len : p2.length ≤ s.nextSeek.length :=
          (filterTracksExc_sublist search s.nextSeek p2 k2 hf2).length_le
        have hs2 : SettleInv { s with next := p1, nextSeek := p2, history := p3 } := by
          refine ⟨by dsimp only; omega, fun hcur => ?_⟩
          have hcur' : s.curr = none := hcur
          rcases h2 hcur' with ⟨hn, hsk⟩
          rw [hn] at hf1
          unfold filterTracksExc at hf1
          cases hf1
          rw [hsk] at hf2
          unfold filterTracksExc at hf2
          cases hf2
          exact ⟨rfl, rfl⟩
        rcases hc : s.curr with _ | c
        · exact refreshQueue_settleInv _ _
        · dsimp only
          rcases hrc : recursiveCompare (trackToJS c) search with e | bv
          · rw [hc] at hs2
            exact hs2
          · rcases bv with _ | _
            · exact refreshQueue_settleInv _ _
            · exact refreshQueue_settleInv _ _

theorem settleInv_setShuffle (s : QState) (h : SettleInv s) (b : Bool) (rz : Rnd) :
    SettleInv (setShuffle s b rz).1 := by
  unfold setShuffle
  by_cases hb : b = s.shuffleQueue
  · rw [if_pos hb]
    exact h
  · rw [if_neg hb]
    exact refreshQueue_settleInv _ _

theorem reachable_settleInv {s : QState} (h : Reachable s) : SettleInv s := by
  induction h with
  | init => exact ⟨by simp [initQState], fun _ => ⟨rfl, rfl⟩⟩
  | push t rz _ _ => exact refreshQueue_settleInv _ _
  | pushMany ts rz _ _ => exact refreshQueue_settleInv _ _
  | addNext t rz _ _ => exact refreshQueue_settleInv _ _
  | pop _ ih => exact settleInv_pop _ ih
  | remove search rz _ ih => exact settleInv_remove _ ih search rz
  | clear _ _ => exact settleInv_clear _
  | next r _ ih => exact settleInv_next _ ih r
  | prev _ ih => exact settleInv_prev _ ih
  | reset rz _ _ => exact refreshQueue_settleInv _ _
  | seekLen len rz _ _ => exact refreshQueue_settleInv _ _
  | defaultSeekLen rz _ _ => exact refreshQueue_settleInv _ _
  | shuffle b rz _ ih => exact settleInv_setShuffle _ ih b rz

theorem qs1_reachable : Reachable qs1 := Reachable.push trackA rzNil Reachable.init

theorem qs2_reachable : Reachable qs2 := Reachable.push trackB rzNil qs1_reachable

theorem qs3_reachable : Reachable qs3 := Reachable.next 0 qs2_reachable

theorem qs4_reachable : Reachable qs4 := Reachable.prev qs3_reachable

/-- Claim C1 (confirmed): every reachable queue state — hence the state after any
public mutating call — satisfies the settle invariant: the lookahead length is at
most `seekSize`, and when `seekSize > 0` and the pool or the lookahead is
non-empty, `current` is non-empty. -/
theorem settle_invariant (s : QState) (h : Reachable s) :
    s.nextSeek.length ≤ s.seekSize ∧
    (0 < s.seekSize → (s.next ≠ [] ∨ s.nextSeek ≠ []) → s.curr ≠ none) := by
  have hi := reachable_settleInv h
  refine ⟨hi.1, ?_⟩
  intro _ hne hcur
  rcases hi.2 hcur with ⟨a, b⟩
  rcases hne with hne | hne
  exacts [hne a, hne b]

theorem settle_invariant_witness :
    qs2.nextSeek.length ≤ qs2.seekSize ∧ qs2.curr ≠ none := by
  have h := settle_invariant qs2 qs2_reachable
  exact ⟨h.1, h.2 (by decide) (Or.inr (by decide))⟩

/-- Claim C5 (corrected): on a reachable state, `next()` returns null iff the
lookahead is empty and (`seekSize > 0` or the pool is empty).  In particular,
with the default `seekSize = 3`, `next()` can return null while the pool still
holds tracks. -/
theorem next_null_iff (s : QState) (h : Reachable s) (r : Nat) :
    (next s r).2.1 = none ↔ s.nextSeek = [] ∧ (0 < s.seekSize ∨ s.next = []) := by
  have hi := reachable_settleInv h
  unfold next
  by_cases hie : isNextEmpty s = true
  · rw [if_pos hie]
    unfold isNextEmpty at hie
    split at hie
    next hseek =>
      simp only [List.isEmpty_iff] at hie
      simp [hie, Or.inl hseek]
    next hseek =>
      simp only [List.isEmpty_iff] at hie
      have hsk : s.nextSeek = [] := by
        have h1 := hi.1
        have h0 : s.nextSeek.length = 0 := by omega
        exact List.length_eq_zero.mp h0
      simp [hsk, hie]
  · rw [if_neg hie]
    by_cases hne : s.next.isEmpty = true
    · rw [if_pos hne]
      have hseek : 0 < s.seekSize ∧ s.nextSeek ≠ [] := by
        unfold isNextEmpty at hie
        split at hie
        · exact ⟨by assumption, fun h0 => hie (by simp [h0])⟩
        · exact absurd hne hie
      constructor
      · intro hcur
        exfalso
        have hcur' : s.nextSeek.head? = none := hcur
        rw [List.head?_eq_none_iff] at hcur'
        exact hseek.2 hcur'
      · rintro ⟨hsk, -⟩
        exact absurd hsk hseek.2
    · rw [if_neg hne]
      have hnn : s.next ≠ [] := fun h0 => hne (by simp [h0])
      rcases hpick : (if s.shuffleQueue then s.next.get? (r % s.next.length)
          else s.next.head?) with _ | u
      · exfalso
        rcases hsh : s.shuffleQueue with _ | _
        · rw [hsh] at hpick
          simp only [if_neg Bool.false_ne_true] at hpick
          rw [List.head?_eq_none_iff] at hpick
          exact hnn hpick
        · rw [hsh] at hpick
          simp only [if_pos] at hpick
          rw [List.get?_eq_none] at hpick
          have : r % s.next.length < s.next.length :=
            Nat.mod_lt _ (List.length_pos.mpr hnn)
          omega
      · constructor
        · intro hcur
          exfalso
          have hcur' : (s.nextSeek ++ [u]).head? = none := hcur
          rw [List.head?_eq_none_iff] at hcur'
          simp at hcur'
        · rintro ⟨hsk, hp | hp⟩
          · exfalso
            unfold isNextEmpty at hie
            rw [if_pos hp, hsk] at hie
            simp at hie
          · exact absurd hp hnn

theorem next_null_iff_witness : (next qs4 0).2.1 = none :=
  (next_null_iff qs4 qs4_reachable 0).mpr ⟨by decide, Or.inl (by decide)⟩

theorem head?_toList_append_tail (l : List Track) (hl : l ≠ []) :
    l.head?.toList ++ l.tail = l := by
  cases l with
  | nil => exact absurd rfl hl
  | cons a rest => rfl

/-- Claim C3 (corrected): after a successful `next()`, `prev()` restores
`current` to the identical pre-`next` track and restores the history length, but
the lookahead length is restored only when the pool was non-empty at the
`next()`; with an empty pool it comes back one shorter. -/
theorem next_prev_roundtrip (s : QState) (h : Reachable s) (r : Nat) (t : Track)
    (hs : (next s r).2.1 = some t) :
    (prev (next s r).1).2.1 = s.curr ∧
    (prev (next s r).1).1.curr = s.curr ∧
    (prev (next s r).1).1.history.length = s.history.length ∧
    (prev (next s r).1).1.nextSeek.length =
      (if s.next = [] then s.nextSeek.length - 1 else s.nextSeek.length) := by
  have hi := reachable_settleInv h
  by_cases hie : isNextEmpty s = true
  · exfalso
    unfold next at hs
    rw [if_pos hie] at hs
    simp at hs
  · obtain ⟨c, hc⟩ : ∃ c, s.curr = some c := by
      rcases hcc : s.curr with _ | c
      · exfalso
        rcases hi.2 hcc with ⟨hn, hsk⟩
        unfold isNextEmpty at hie
        split at hie
        · exact hie (by simp [hsk])
        · exact hie (by simp [hn])
      · exact ⟨c, rfl⟩
    by_cases hne : s.next.isEmpty = true
    · have hnil : s.next = [] := List.isEmpty_iff.mp hne
      have hsk : s.nextSeek ≠ [] := by
        unfold isNextEmpty at hie
        split at hie
        · exact fun h0 => hie (by simp [h0])
        · exact absurd hne hie
      obtain ⟨t0, rest, hns⟩ : ∃ t0 rest, s.nextSeek = t0 :: rest := by
        rcases hv : s.nextSeek with _ | ⟨t0, rest⟩
        · exact absurd hv hsk
        · exact ⟨t0, rest, rfl⟩
      have hstep : (next s r).1 =
          { s with history := s.history ++ [c], curr := some t0, nextSeek := rest } := by
        unfold next
        rw [if_neg hie, if_pos hne, hc, hns]
        rfl
      rw [hstep]
      unfold prev
      rw [if_neg (by simp)]
      refine ⟨?_, ?_, ?_, ?_⟩
      · show (match (s.history ++ [c]).getLast? with
          | some t => some t
          | none => some t0) = s.curr
        rw [List.getLast?_concat, hc]
      · show (match (s.history ++ [c]).getLast? with
          | some t => some t
          | none => some t0) = s.curr
        rw [List.getLast?_concat, hc]
      · show (s.history ++ [c]).dropLast.length = s.history.length
        rw [List.dropLast_concat]
      · show ((some t0).toList ++ rest).dropLast.length =
          if s.next = [] then s.nextSeek.length - 1 else s.nextSeek.length
        rw [if_pos hnil, hns]
        simp [List.length_dropLast]
    · have hnn : s.next ≠ [] := fun h0 => hne (by simp [h0])
      rcases hpick : (if s.shuffleQueue then s.next.get? (r % s.next.length)
          else s.next.head?) with _ | u
      · exfalso
        rcases hsh : s.shuffleQueue with _ | _
        · rw [hsh] at hpick
          simp only [if_neg Bool.false_ne_true] at hpick
          rw [List.head?_eq_none_iff] at hpick
          exact hnn hpick
        · rw [hsh] at hpick
          simp only [if_pos] at hpick
          rw [List.get?_eq_none] at hpick
          have : r % s.next.length < s.next.length :=
            Nat.mod_lt _ (List.length_pos.mpr hnn)
          omega
      · have hstep : (next s r).1 =
            { s with history := s.history ++ [c], curr := (s.nextSeek ++ [u]).head?,
                     nextSeek := (s.nextSeek ++ [u]).tail,
                     next := deleteKey s.next u.key } := by
          unfold next
          rw [if_neg hie, if_neg hne, hpick, hc]
          rfl
        rw [hstep]
        unfold prev
        rw [if_neg (by simp)]
        have hochead : ((s.nextSeek ++ [u]).head?).toList ++ (s.nextSeek ++ [u]).tail =
            s.nextSeek ++ [u] :=
          head?_toList_append_tail _ (by simp)
        refine ⟨?_, ?_, ?_, ?_⟩
        · show (match (s.history ++ [c]).getLast? with
            | some t => some t
            | none => (s.nextSeek ++ [u]).head?) = s.curr
          rw [List.getLast?_concat, hc]
        · show (match (s.history ++ [c]).getLast? with
            | some t => some t
            | none => (s.nextSeek ++ [u]).head?) = s.curr
          rw [List.getLast?_concat, hc]
        · show (s.history ++ [c]).dropLast.length = s.history.length
          rw [List.dropLast_concat]
        · show (((s.nextSeek ++ [u]).head?).toList ++
              (s.nextSeek ++ [u]).tail).dropLast.length =
            (if s.next = [] then s.nextSeek.length - 1 else s.nextSeek.length)
          rw [hochead, if_neg hnn, List.dropLast_concat]

theorem qs5_reachable : Reachable qs5 :=
  Reachable.push trackA rzNil (Reachable.push trackA rzNil (Reachable.push trackA rzNil
    (Reachable.push trackA rzNil qs1_reachable)))

theorem next_prev_roundtrip_witness :
    (prev (next qs5 0).1).2.1 = qs5.curr ∧
    (prev (next qs5 0).1).1.nextSeek.length = qs5.nextSeek.length := by
  have h := next_prev_roundtrip qs5 qs5_reachable 0 ⟨2, "a", .obj []⟩ (by decide)
  refine ⟨h.1, ?_⟩
  rw [h.2.2.2, if_neg (by decide)]

theorem cons_set_perm : ∀ (t : List Track) (m : Nat) (x b : Track),
    t.get? m = some b → List.Perm (b :: t.set m x) (x :: t) := by
  intro t
  induction t with
  | nil => intro m x b h; simp at h
  | cons y t' ih =>
    intro m x b h
    cases m with
    | zero =>
      simp only [List.get?_cons_zero, Option.some.injEq] at h
      subst h
      exact List.Perm.swap _ _ _
    | succ m' =>
      simp only [List.get?_cons_succ] at h
      have hside := ih m' x b h
      exact (List.Perm.swap _ _ _).trans ((hside.cons y).trans (List.Perm.swap _ _ _))

theorem swapIdx_perm : ∀ (l : List Track) (i j : Nat), List.Perm (swapIdx l i j) l := by
  intro l
  induction l with
  | nil =>
    intro i j
    unfold swapIdx
    simp
  | cons y t ih =>
    intro i j
    unfold swapIdx
    cases i with
    | zero =>
      cases j with
      | zero =>
        simp only [List.get?_cons_zero]
        exact List.Perm.refl _
      | succ m =>
        rcases hb : t.get? m with _ | b
        · simp only [List.get?_cons_zero, List.get?_cons_succ, hb]
          exact List.Perm.refl _
        · simp only [List.get?_cons_zero, List.get?_cons_succ, hb]
          exact cons_set_perm t m y b hb
    | succ n =>
      cases j with
      | zero =>
        rcases ha : t.get? n with _ | a
        · simp only [List.get?_cons_zero, List.get?_cons_succ, ha]
          exact List.Perm.refl _
        · simp only [List.get?_cons_zero, List.get?_cons_succ, ha]
          exact cons_set_perm t n y a ha
      | succ m =>
        rcases ha : t.get? n with _ | a
        · simp only [List.get?_cons_succ, ha]
          exact List.Perm.refl _
        · rcases hb : t.get? m with _ | b
          · simp only [List.get?_cons_succ, ha, hb]
            exact List.Perm.refl _
          · simp only [List.get?_cons_succ, ha, hb]
            have hrec := ih n m
            unfold swapIdx at hrec
            rw [ha, hb] at hrec
            exact hrec.cons y

theorem fyAux_perm (rs : List Nat) : ∀ (l : List Track) (i : Nat),
    List.Perm (fyAux l i rs) l := by
  induction rs with
  | nil => intro l i; exact List.Perm.refl _
  | cons r rs ih =>
    intro l i
    exact (ih _ _).trans (swapIdx_perm _ _ _)

theorem fyShuffle_perm (l : List Track) (needed : Nat) (rs : List Nat) :
    List.Perm (fyShuffle l needed rs) l :=
  fyAux_perm _ _ _

theorem insertPool_perm (t : Track) : ∀ (p : List Track),
    t.key ∉ p.map (fun u => u.key) → List.Perm (insertPool t p) (t :: p) := by
  intro p
  induction p with
  | nil => intro _; exact List.Perm.refl _
  | cons u rest ih =>
    intro hmem
    simp only [List.map_cons, List.mem_cons, not_or] at hmem
    unfold insertPool
    by_cases h1 : t.key < u.key
    · rw [if_pos h1]
    · rw [if_neg h1, if_neg hmem.1]
      have hrest := ih (by
        intro hin
        exact hmem.2 hin)
      exact (hrest.cons u).trans (List.Perm.swap _ _ _)

theorem insertPool_keys_perm (t : Track) (p : List Track)
    (h : t.key ∉ p.map (fun u => u.key)) :
    List.Perm ((insertPool t p).map (fun u => u.key)) (t.key :: p.map (fun u => u.key)) :=
  (insertPool_perm t p h).map _

theorem foldl_insertPool_perm : ∀ (ms : List Track) (p : List Track),
    (∀ k ∈ ms.map (fun u => u.key), k ∉ p.map (fun u => u.key)) →
    (ms.map (fun u => u.key)).Nodup →
    List.Perm (ms.foldl (fun acc t => insertPool t acc) p) (ms ++ p) := by
  intro ms
  induction ms with
  | nil => intro p _ _; exact List.Perm.refl _
  | cons m rest ih =>
    intro p hfresh hnodup
    simp only [List.map_cons, List.nodup_cons] at hnodup
    have hmf : m.key ∉ p.map (fun u => u.key) := hfresh m.key (by simp)
    have h1 := insertPool_perm m p hmf
    have hk1 := h1.map (fun u => u.key)
    have hih := ih (insertPool m p) (by
      intro k hk hkin
      have : k ∈ m.key :: p.map (fun u => u.key) := hk1.subset hkin
      rcases List.mem_cons.mp this with he | hp
      · subst he
        exact hnodup.1 hk
      · exact hfresh k (by simp [hk]) hp) hnodup.2
    refine hih.trans ?_
    refine ((List.Perm.append_left rest h1).trans ?_)
    exact List.perm_middle

theorem deleteKey_cons_perm : ∀ (p : List Track) (c : Track),
    (p.map (fun u => u.key)).Nodup → c ∈ p →
    List.Perm p (c :: deleteKey p c.key) := by
  intro p
  induction p with
  | nil => intro c _ hc; simp at hc
  | cons u rest ih =>
    intro c hnodup hc
    simp only [List.map_cons, List.nodup_cons] at hnodup
    by_cases hk : u.key = c.key
    · have huc : u = c := by
        rcases List.mem_cons.mp hc with he | hmem
        · exact he.symm
        · exfalso
          apply hnodup.1
          rw [hk]
          exact List.mem_map.mpr ⟨c, hmem, rfl⟩
      subst huc
      have hdel : deleteKey (u :: rest) u.key = deleteKey rest u.key := by
        unfold deleteKey
        simp
      rw [hdel]
      have hrest : deleteKey rest u.key = rest := by
        unfold deleteKey
        apply List.filter_eq_self.mpr
        intro a ha
        simp only [bne_iff_ne, ne_eq, decide_eq_true_eq]
        intro he
        apply hnodup.1
        rw [← he]
        exact List.mem_map.mpr ⟨a, ha, rfl⟩
      rw [hrest]
    · have hcr : c ∈ rest := by
        rcases List.mem_cons.mp hc with he | hmem
        · exact absurd (congrArg Track.key he.symm) hk
        · exact hmem
      have hdel : deleteKey (u :: rest) c.key = u :: deleteKey rest c.key := by
        unfold deleteKey
        simp only [List.filter_cons]
        rw [if_pos (by simp [hk])]
      rw [hdel]
      have := (ih c hnodup.2 hcr).cons u
      exact this.trans (List.Perm.swap _ _ _)

theorem foldl_deleteKey_perm : ∀ (cs p rest2 : List Track),
    (p.map (fun u => u.key)).Nodup → List.Perm p (cs ++ rest2) →
    List.Perm (cs.foldl (fun acc t => deleteKey acc t.key) p) rest2 := by
  intro cs
  induction cs with
  | nil =>
    intro p rest2 _ hperm
    simpa using hperm
  | cons c cs' ih =>
    intro p rest2 hnodup hperm
    have hc : c ∈ p := hperm.symm.subset (by simp)
    have h1 := deleteKey_cons_perm p c hnodup hc
    have h2 : List.Perm (deleteKey p c.key) (cs' ++ rest2) := by
      have hx := h1.symm.trans hperm
      exact hx.cons_inv
    have hnodup' : ((deleteKey p c.key).map (fun u => u.key)).Nodup :=
      ((List.filter_sublist _).map _).nodup hnodup
    exact ih _ _ hnodup' h2

theorem get_eraseIdx_perm : ∀ (l : List Track) (i : Nat) (t : Track),
    l.get? i = some t → List.Perm l (t :: l.eraseIdx i) := by
  intro l
  induction l with
  | nil => intro i t h; simp at h
  | cons u rest ih =>
    intro i t h
    cases i with
    | zero =>
      simp only [List.get?_cons_zero, Option.some.injEq] at h
      subst h
      exact List.Perm.refl _
    | succ i' =>
      simp only [List.get?_cons_succ] at h
      have := (ih i' t h).cons u
      exact this.trans (List.Perm.swap _ _ _)

theorem adjustNextSeek_perm (k : Nat) (sh : Bool) (ns p : List Track) (rs : List Nat)
    (hnodup : ((ns ++ p).map (fun u => u.key)).Nodup) :
    List.Perm ((adjustNextSeek k sh ns p rs).1 ++ (adjustNextSeek k sh ns p rs).2)
      (ns ++ p) := by
  rw [List.map_append] at hnodup
  rcases List.nodup_append.mp hnodup with ⟨hnn, hnp, hdisj⟩
  unfold adjustNextSeek
  dsimp only
  by_cases h1 : k < ns.length
  · rw [if_pos h1]
    have hfold : List.Perm ((ns.drop k).foldl (fun acc t => insertPool t acc) p)
        (ns.drop k ++ p) := by
      apply foldl_insertPool_perm
      · intro kk hkk
        have : kk ∈ ns.map (fun u => u.key) := by
          rcases List.mem_map.mp hkk with ⟨u, hu, he⟩
          exact List.mem_map.mpr ⟨u, (List.drop_sublist _ _).mem hu, he⟩
        exact hdisj this
      · exact ((List.drop_sublist _ _).map _).nodup hnn
    refine (List.Perm.append_left _ hfold).trans ?_
    rw [← List.append_assoc, List.take_append_drop]
  · rw [if_neg h1]
    by_cases h2 : ns.length < k
    · rw [if_pos h2]
      have harr : List.Perm (if sh = true then
          fyShuffle p (min (k - ns.length) p.length) rs else p) p := by
        by_cases hsh : sh = true
        · rw [if_pos hsh]
          exact fyShuffle_perm _ _ _
        · rw [if_neg hsh]
      set arranged := (if sh = true then fyShuffle p (min (k - ns.length) p.length) rs
        else p) with harrdef
      set needed := min (k - ns.length) p.length with hneed
      have hsplit : List.Perm p (arranged.take needed ++ arranged.drop needed) := by
        rw [List.take_append_drop]
        exact harr.symm
      have hfold : List.Perm ((arranged.take needed).foldl
          (fun acc t => deleteKey acc t.key) p) (arranged.drop needed) :=
        foldl_deleteKey_perm _ _ _ hnp hsplit
      refine (List.Perm.append_left _ hfold).trans ?_
      rw [List.append_assoc]
      refine (List.Perm.append_left _ ?_).trans (List.Perm.append_left _ harr)
      rw [List.take_append_drop]
    · rw [if_neg h2]

theorem head?_toList_tail (l : List Track) : l.head?.toList ++ l.tail = l := by
  cases l <;> rfl

theorem refreshQueue_allKeys_perm (s : QState) (rz : Rnd) (hnodup : (allKeys s).Nodup) :
    List.Perm (allKeys (refreshQueue s rz)) (allKeys s) := by
  have hnsp : ((s.nextSeek ++ s.next).map (fun t => t.key)).Nodup := by
    rw [List.map_append]
    refine List.Nodup.sublist ?_ hnodup
    unfold allKeys
    rw [List.append_assoc]
    exact List.sublist_append_right _ _
  have hadj := adjustNextSeek_perm s.seekSize s.shuffleQueue s.nextSeek s.next rz.r1 hnsp
  have hadjk := hadj.map (fun t => t.key)
  rw [List.map_append, List.map_append] at hadjk
  unfold refreshQueue
  dsimp only
  by_cases hA : 0 < s.seekSize ∧
      (adjustNextSeek s.seekSize s.shuffleQueue s.nextSeek s.next rz.r1).1 = []
  · rw [if_pos hA]
    unfold allKeys
    dsimp only
    simp only [List.append_assoc]
    exact List.Perm.append_left _ (List.Perm.append_left _ hadjk)
  · rw [if_neg hA]
    rcases hc : s.curr with _ | c
    · by_cases hB : s.seekSize = 0 ∧
          0 < (adjustNextSeek s.seekSize s.shuffleQueue s.nextSeek s.next rz.r1).2.length
      · rw [if_pos hB]
        have hlt : (if s.shuffleQueue then rz.rc %
            (adjustNextSeek s.seekSize s.shuffleQueue s.nextSeek s.next rz.r1).2.length
            else 0) <
            (adjustNextSeek s.seekSize s.shuffleQueue s.nextSeek s.next rz.r1).2.length := by
          split
          · exact Nat.mod_lt _ hB.2
          · exact hB.2
        rcases hget : (adjustNextSeek s.seekSize s.shuffleQueue s.nextSeek
            s.next rz.r1).2.get? (if s.shuffleQueue then rz.rc %
            (adjustNextSeek s.seekSize s.shuffleQueue s.nextSeek s.next rz.r1).2.length
            else 0) with _ | t
        · exfalso
          rw [List.get?_eq_none] at hget
          omega
        · have hepk := (get_eraseIdx_perm _ _ _ hget).map (fun t => t.key)
          simp only [List.map_cons] at hepk
          unfold allKeys
          dsimp only
          rw [hc]
          simp only [Option.toList_some, Option.toList_none, List.map_cons, List.map_nil,
            List.append_assoc, List.append_nil, List.nil_append, List.singleton_append]
          refine List.Perm.append_left _ ?_
          refine List.perm_middle.symm.trans ?_
          exact (List.Perm.append_left _ hepk.symm).trans hadjk
      · rw [if_neg hB]
        have ha11nodup : ((adjustNextSeek s.seekSize s.shuffleQueue s.nextSeek s.next
            rz.r1).1.map (fun t => t.key) ++
            (adjustNextSeek s.seekSize s.shuffleQueue s.nextSeek s.next
            rz.r1).2.map (fun t => t.key)).Nodup := by
          refine (hadjk.nodup_iff).mpr ?_
          rwa [List.map_append] at hnsp
        have htail : (((adjustNextSeek s.seekSize s.shuffleQueue s.nextSeek s.next
            rz.r1).1.tail ++ (adjustNextSeek s.seekSize s.shuffleQueue s.nextSeek s.next
            rz.r1).2).map (fun t => t.key)).Nodup := by
          rw [List.map_append]
          refine List.Nodup.sublist ?_ ha11nodup
          exact List.Sublist.append ((List.tail_sublist _).map _) (List.Sublist.refl _)
        have hadj2 := adjustNextSeek_perm s.seekSize s.shuffleQueue
          (adjustNextSeek s.seekSize s.shuffleQueue s.nextSeek s.next rz.r1).1.tail
          (adjustNextSeek s.seekSize s.shuffleQueue s.nextSeek s.next rz.r1).2 rz.r2 htail
        have hadj2k := hadj2.map (fun t => t.key)
        rw [List.map_append, List.map_append] at hadj2k
        unfold allKeys
        dsimp only
        rw [hc]
        simp only [Option.toList_some, Option.toList_none, List.map_cons, List.map_nil,
          List.append_assoc, List.append_nil, List.nil_append]
        refine List.Perm.append_left _ ?_
        refine ((List.Perm.append_left _ hadj2k).trans ?_)
        rw [← List.append_assoc, ← List.map_append, head?_toList_tail]
        exact hadjk
    · unfold allKeys
      dsimp only
      rw [hc]
      simp only [Option.toList_some, List.map_cons, List.map_nil, List.append_assoc,
        List.singleton_append]
      exact List.Perm.append_left _ (hadjk.cons _)

theorem keysInv_perm (s s' : QState) (hperm : List.Perm (allKeys s') (allKeys s))
    (hctr : s'.tracksKeyCounter = s.tracksKeyCounter) (h : KeysInv s) : KeysInv s' :=
  ⟨hperm.nodup_iff.mpr h.1, fun k hk => hctr ▸ h.2 k (hperm.subset hk)⟩

theorem keysInv_sub (s s' : QState) (hsub : (allKeys s').Sublist (allKeys s))
    (hctr : s'.tracksKeyCounter = s.tracksKeyCounter) (h : KeysInv s) : KeysInv s' :=
  ⟨hsub.nodup h.1, fun k hk => hctr ▸ h.2 k (hsub.subset hk)⟩

theorem keysInv_refresh (s : QState) (rz : Rnd) (h : KeysInv s) :
    KeysInv (refreshQueue s rz) :=
  keysInv_perm _ _ (refreshQueue_allKeys_perm s rz h.1) (refreshQueue_tracksKeyCounter s rz) h

theorem newKey_not_mem (s : QState) (h : KeysInv s) :
    s.tracksKeyCounter + 1 ∉ allKeys s := fun hmem => by
  have := (h.2 _ hmem).2
  omega

theorem allKeys_poolInsert (s : QState) (tr : Track) (n : Nat) :
    allKeys { s with tracksKeyCounter := n, next := insertPool tr s.next } =
      s.history.map (fun t => t.key) ++ (s.curr.toList).map (fun t => t.key) ++
        s.nextSeek.map (fun t => t.key) ++ (insertPool tr s.next).map (fun t => t.key) := rfl

theorem keysInv_poolInsert_step (s : QState) (src : String) (data : JSVal)
    (h : KeysInv s) :
    KeysInv { s with tracksKeyCounter := s.tracksKeyCounter + 1,
                     next := insertPool ⟨s.tracksKeyCounter + 1, src, data⟩ s.next } := by
  have hfreshAll := newKey_not_mem s h
  have hfresh : (s.tracksKeyCounter + 1) ∉ s.next.map (fun u => u.key) := by
    intro hmem
    apply hfreshAll
    unfold allKeys
    exact List.mem_append.mpr (Or.inr hmem)
  have hik := insertPool_keys_perm ⟨s.tracksKeyCounter + 1, src, data⟩ s.next hfresh
  have hperm : List.Perm
      (allKeys { s with tracksKeyCounter := s.tracksKeyCounter + 1,
                        next := insertPool ⟨s.tracksKeyCounter + 1, src, data⟩ s.next })
      ((s.tracksKeyCounter + 1) :: allKeys s) := by
    rw [allKeys_poolInsert]
    unfold allKeys
    rw [← Multiset.coe_eq_coe]
    simp only [← Multiset.coe_add, ← Multiset.cons_coe, ← Multiset.singleton_add]
    rw [Multiset.coe_eq_coe.mpr hik]
    simp only [← Multiset.coe_add, ← Multiset.cons_coe, ← Multiset.singleton_add]
    ac_rfl
  constructor
  · exact hperm.nodup_iff.mpr (List.nodup_cons.mpr ⟨hfreshAll, h.1⟩)
  · intro k hk
    rcases List.mem_cons.mp (hperm.subset hk) with he | hm
    · subst he
      exact ⟨by omega, show s.tracksKeyCounter + 1 ≤ s.tracksKeyCounter + 1 by omega⟩
    · have := h.2 k hm
      exact ⟨this.1, show k ≤ s.tracksKeyCounter + 1 by omega⟩

theorem keysInv_push (s : QState) (t : PrimTrack) (rz : Rnd) (h : KeysInv s) :
    KeysInv (push s t rz).1 :=
  keysInv_refresh _ _ (keysInv_poolInsert_step s t.src t.data h)

theorem keysInv_addNext (s : QState) (t : PrimTrack) (rz : Rnd) (h : KeysInv s) :
    KeysInv (addNext s t rz).1 := by
  apply keysInv_refresh
  have hperm : List.Perm
      (allKeys { s with tracksKeyCounter := s.tracksKeyCounter + 1,
                        nextSeek := (⟨s.tracksKeyCounter + 1, t.src, t.data⟩ : Track) ::
                          s.nextSeek })
      ((s.tracksKeyCounter + 1) :: allKeys s) := by
    unfold allKeys
    dsimp only
    rw [← Multiset.coe_eq_coe]
    simp only [List.map_cons, ← Multiset.coe_add, ← Multiset.cons_coe,
      ← Multiset.singleton_add]
    ac_rfl
  constructor
  · exact hperm.nodup_iff.mpr (List.nodup_cons.mpr ⟨newKey_not_mem s h, h.1⟩)
  · intro k hk
    rcases List.mem_cons.mp (hperm.subset hk) with he | hm
    · subst he
      exact ⟨by omega, show s.tracksKeyCounter + 1 ≤ s.tracksKeyCounter + 1 by omega⟩
    · have := h.2 k hm
      exact ⟨this.1, show k ≤ s.tracksKeyCounter + 1 by omega⟩

theorem keysInv_pop (s : QState) (h : KeysInv s) : KeysInv (pop s).1 := by
  unfold pop
  rw [List.getLast?_map]
  rcases hnext : s.next.getLast? with _ | u0
  · simp only [Option.map_none']
    rcases hns : s.nextSeek.getLast? with _ | u
    · rcases hc : s.curr with _ | c
      · exact h
      · refine keysInv_sub s _ ?_ rfl h
        unfold allKeys
        dsimp only
        rw [hc]
        simp only [Option.toList_some, Option.toList_none, List.map_cons, List.map_nil]
        refine List.Sublist.append (List.Sublist.append (List.Sublist.append
          (List.Sublist.refl _) ?_) (List.Sublist.refl _)) (List.Sublist.refl _)
        simp
    · refine keysInv_sub s _ ?_ rfl h
      unfold allKeys
      dsimp only
      exact List.Sublist.append (List.Sublist.append (List.Sublist.refl _)
        ((List.dropLast_sublist _).map _)) (List.Sublist.refl _)
  · simp only [Option.map_some']
    refine keysInv_sub s _ ?_ rfl h
    unfold allKeys
    dsimp only
    exact List.Sublist.append (List.Sublist.refl _) ((List.filter_sublist _).map _)

theorem keysInv_clear (s : QState) : KeysInv (clear s).1 := by
  constructor
  · simp [clear, allKeys]
  · intro k hk
    exact absurd hk (by simp [clear, allKeys])

theorem poolKeys_nodup (s : QState) (h : (allKeys s).Nodup) :
    (s.next.map (fun t => t.key)).Nodup := by
  refine List.Nodup.sublist ?_ h
  unfold allKeys
  exact List.sublist_append_right _ _

theorem keysInv_next (s : QState) (r : Nat) (h : KeysInv s) : KeysInv (next s r).1 := by
  unfold next
  by_cases hie : isNextEmpty s = true
  · rw [if_pos hie]
    exact h
  · rw [if_neg hie]
    by_cases hne : s.next.isEmpty = true
    · rw [if_pos hne]
      refine keysInv_perm s _ ?_ rfl h
      have hht : ((s.nextSeek.head?.toList.map (fun t => t.key) : Multiset Nat)) +
          (s.nextSeek.tail.map (fun t => t.key) : Multiset Nat) =
          (s.nextSeek.map (fun t => t.key) : Multiset Nat) := by
        rw [Multiset.coe_add, ← List.map_append, head?_toList_tail]
      unfold allKeys
      dsimp only
      rw [← Multiset.coe_eq_coe]
      simp only [List.map_append, ← Multiset.coe_add]
      rw [← hht]
      ac_rfl
    · rw [if_neg hne]
      rcases hpick : (if s.shuffleQueue then s.next.get? (r % s.next.length)
          else s.next.head?) with _ | u
      · exact h
      · have hu : u ∈ s.next := by
          rcases hsh : s.shuffleQueue with _ | _
          · rw [hsh] at hpick
            simp only [if_neg Bool.false_ne_true] at hpick
            exact List.mem_of_mem_head? (by rw [hpick]; rfl)
          · rw [hsh] at hpick
            simp only [if_pos] at hpick
            exact List.get?_mem hpick
        have hdel := (deleteKey_cons_perm s.next u (poolKeys_nodup s h.1) hu).map
          (fun t => t.key)
        simp only [List.map_cons] at hdel
        refine keysInv_perm s _ ?_ rfl h
        unfold allKeys
        dsimp only
        rw [List.map_append]
        simp only [List.append_assoc]
        refine List.Perm.append_left _ ?_
        refine List.Perm.append_left _ ?_
        rw [← List.append_assoc, ← List.map_append, head?_toList_tail,
          List.map_append, List.append_assoc]
        simp only [List.map_cons, List.map_nil, List.singleton_append]
        exact List.Perm.append_left _ hdel.symm

theorem allKeys_parts (s : QState) (h : (allKeys s).Nodup) :
    ((s.history.map (fun t => t.key)).Nodup ∧
     ((s.curr.toList).map (fun t => t.key)).Nodup ∧
     (s.nextSeek.map (fun t => t.key)).Nodup ∧
     (s.next.map (fun t => t.key)).Nodup) ∧
    ((s.history.map (fun t => t.key)).Disjoint ((s.curr.toList).map (fun t => t.key)) ∧
     (s.history.map (fun t => t.key)).Disjoint (s.nextSeek.map (fun t => t.key)) ∧
     (s.history.map (fun t => t.key)).Disjoint (s.next.map (fun t => t.key)) ∧
     ((s.curr.toList).map (fun t => t.key)).Disjoint (s.nextSeek.map (fun t => t.key)) ∧
     ((s.curr.toList).map (fun t => t.key)).Disjoint (s.next.map (fun t => t.key)) ∧
     (s.nextSeek.map (fun t => t.key)).Disjoint (s.next.map (fun t => t.key))) := by
  unfold allKeys at h
  rw [List.nodup_append, List.nodup_append, List.nodup_append] at h
  obtain ⟨⟨⟨h1, h2, d12⟩, h3, d123⟩, h4, d1234⟩ := h
  refine ⟨⟨h1, h2, h3, h4⟩, d12, ?_, ?_, ?_, ?_, ?_⟩
  · intro a ha hb
    exact d123 (List.mem_append.mpr (Or.inl ha)) hb
  · intro a ha hb
    exact d1234 (List.mem_append.mpr (Or.inl (List.mem_append.mpr (Or.inl ha)))) hb
  · intro a ha hb
    exact d123 (List.mem_append.mpr (Or.inr ha)) hb
  · intro a ha hb
    exact d1234 (List.mem_append.mpr (Or.inl (List.mem_append.mpr (Or.inr ha)))) hb
  · intro a ha hb
    exact d1234 (List.mem_append.mpr (Or.inr ha)) hb

theorem keysInv_prev (s : QState) (h : KeysInv s) : KeysInv (prev s).1 := by
  unfold prev
  by_cases hh : s.history.isEmpty = true
  · rw [if_pos hh]
    exact h
  · rw [if_neg hh]
    refine keysInv_perm s _ ?_ rfl h
    obtain ⟨⟨_, _, _, _⟩, _, _, _, _, dcn, dnn⟩ := allKeys_parts s h.1
    rcases List.eq_nil_or_concat s.history with h0 | ⟨dl, lastt, hdl⟩
    · exact absurd (by simp [h0]) hh
    · rw [List.concat_eq_append] at hdl
      rcases hg : (s.curr.toList ++ s.nextSeek).getLast? with _ | tns
      · have hnil := List.getLast?_eq_none_iff.mp hg
        rcases List.append_eq_nil.mp hnil with ⟨hcn, hnn⟩
        unfold allKeys
        dsimp only
        rw [hdl, List.getLast?_concat, List.dropLast_concat, hcn, hnn]
        simp only [Option.toList_some, List.map_cons, List.map_nil, List.map_append,
          List.append_assoc, List.nil_append, List.append_nil, List.singleton_append,
          List.dropLast_nil]
        exact List.Perm.refl _
      · obtain ⟨ml, mt, hml⟩ : ∃ ml mt, s.curr.toList ++ s.nextSeek = ml ++ [mt] := by
          rcases List.eq_nil_or_concat (s.curr.toList ++ s.nextSeek) with h0 | ⟨ml, mt, hm⟩
          · rw [h0] at hg
            simp at hg
          · exact ⟨ml, mt, by rw [hm, List.concat_eq_append]⟩
        have hmt : mt = tns := by
          rw [hml, List.getLast?_concat] at hg
          exact Option.some.inj hg
        rw [hmt] at hml
        have hfresh : tns.key ∉ s.next.map (fun t => t.key) := by
          intro hmem
          have htm : tns ∈ s.curr.toList ++ s.nextSeek := by
            rw [hml]
            simp
          rcases List.mem_append.mp htm with hma | hmb
          · exact dcn (List.mem_map.mpr ⟨tns, hma, rfl⟩) hmem
          · exact dnn (List.mem_map.mpr ⟨tns, hmb, rfl⟩) hmem
        have hins := insertPool_keys_perm tns s.next hfresh
        unfold allKeys
        dsimp only
        rw [hdl, List.getLast?_concat, List.dropLast_concat, hml, List.dropLast_concat]
        simp only [Option.toList_some, List.map_cons, List.map_nil, List.map_append,
          List.append_assoc, List.singleton_append]
        refine List.Perm.append_left _ ?_
        refine List.Perm.cons _ ?_
        have hR : (s.curr.toList).map (fun t => t.key) ++
            (s.nextSeek.map (fun t => t.key) ++ s.next.map (fun t => t.key)) =
            ml.map (fun t => t.key) ++ (tns.key :: s.next.map (fun t => t.key)) := by
          rw [← List.append_assoc, ← List.map_append, hml]
          simp [List.map_append]
        rw [List.getLast?_concat]
        show List.Perm (ml.map (fun t => t.key) ++
            (insertPool tns s.next).map (fun t => t.key))
          ((s.curr.toList).map (fun t => t.key) ++
            (s.nextSeek.map (fun t => t.key) ++ s.next.map (fun t => t.key)))
        rw [hR]
        exact List.Perm.append_left _ hins

theorem keysInv_reset (s : QState) (rz : Rnd) (h : KeysInv s) : KeysInv (reset s rz).1 := by
  apply keysInv_refresh
  refine keysInv_perm s _ ?_ rfl h
  obtain ⟨⟨n1, n2, n3, n4⟩, d12, d13, d14, d23, d24, d34⟩ := allKeys_parts s h.1
  have hp1 : List.Perm (s.history.foldl (fun p t => insertPool t p) s.next)
      (s.history ++ s.next) :=
    foldl_insertPool_perm _ _ (fun k hk hk2 => d14 hk hk2) n1
  have hp1k := hp1.map (fun t => t.key)
  rw [List.map_append] at hp1k
  have hp2 : List.Perm (s.nextSeek.foldl (fun p t => insertPool t p)
      (s.history.foldl (fun p t => insertPool t p) s.next))
      (s.nextSeek ++ s.history.foldl (fun p t => insertPool t p) s.next) := by
    refine foldl_insertPool_perm _ _ ?_ n3
    intro k hk hkin
    have hm := hp1k.subset hkin
    rcases List.mem_append.mp hm with ha | hb
    · exact d13 ha hk
    · exact d34 hk hb
  have hp2k := hp2.map (fun t => t.key)
  rw [List.map_append] at hp2k
  have hfull : List.Perm ((s.nextSeek.foldl (fun p t => insertPool t p)
      (s.history.foldl (fun p t => insertPool t p) s.next)).map (fun t => t.key))
      (s.nextSeek.map (fun t => t.key) ++
        (s.history.map (fun t => t.key) ++ s.next.map (fun t => t.key))) :=
    hp2k.trans (List.Perm.append_left _ hp1k)
  rcases hc : s.curr with _ | c
  · unfold allKeys
    dsimp only
    rw [hc]
    simp only [Option.toList_none, List.map_nil, List.nil_append]
    refine hfull.trans ?_
    rw [← Multiset.coe_eq_coe]
    simp only [← Multiset.coe_add]
    ac_rfl
  · have hfresh : c.key ∉ (s.nextSeek.foldl (fun p t => insertPool t p)
        (s.history.foldl (fun p t => insertPool t p) s.next)).map (fun t => t.key) := by
      intro hmem
      have hck : c.key ∈ (s.curr.toList).map (fun t => t.key) := by
        rw [hc]
        simp
      have hm := hfull.subset hmem
      rcases List.mem_append.mp hm with ha | hb
      · exact d23 hck ha
      rcases List.mem_append.mp hb with hb1 | hb2
      · exact d12 hb1 hck
      · exact d24 hck hb2
    have hins := insertPool_keys_perm c _ hfresh
    unfold allKeys
    dsimp only
    rw [hc]
    simp only [Option.toList_some, List.map_cons, List.map_nil, List.nil_append]
    refine hins.trans ?_
    refine (List.Perm.cons _ hfull).trans ?_
    rw [← Multiset.coe_eq_coe]
    simp only [← Multiset.coe_add, ← Multiset.cons_coe, ← Multiset.singleton_add]
    ac_rfl

theorem keysInv_setSeekLength (s : QState) (n : Nat) (rz : Rnd) (h : KeysInv s) :
    KeysInv (setSeekLength s n rz).1 := by
  apply keysInv_refresh
  exact ⟨h.1, h.2⟩

theorem keysInv_setDefaultSeekLength (s : QState) (rz : Rnd) (h : KeysInv s) :
    KeysInv (setDefaultSeekLength s rz).1 := by
  apply keysInv_refresh
  exact ⟨h.1, h.2⟩

theorem keysInv_setShuffle (s : QState) (b : Bool) (rz : Rnd) (h : KeysInv s) :
    KeysInv (setShuffle s b rz).1 := by
  unfold setShuffle
  by_cases hb : b = s.shuffleQueue
  · rw [if_pos hb]
    exact h
  · rw [if_neg hb]
    apply keysInv_refresh
    refine keysInv_perm s _ ?_ rfl h
    obtain ⟨⟨n1, n2, n3, n4⟩, d12, d13, d14, d23, d24, d34⟩ := allKeys_parts s h.1
    have hp : List.Perm (s.nextSeek.foldl (fun p t => insertPool t p) s.next)
        (s.nextSeek ++ s.next) :=
      foldl_insertPool_perm _ _ (fun k hk hk2 => d34 hk hk2) n3
    have hpk := hp.map (fun t => t.key)
    rw [List.map_append] at hpk
    unfold allKeys
    dsimp only
    simp only [List.map_nil, List.append_nil]
    refine (List.Perm.append_left _ hpk).trans ?_
    rw [← Multiset.coe_eq_coe]
    simp only [← Multiset.coe_add]
    ac_rfl

theorem keysInv_remove (s : QState) (search : JSVal) (rz : Rnd) (h : KeysInv s) :
    KeysInv (remove s search rz).1 := by
  unfold remove
  rcases hf1 : filterTracksExc search s.next with e | ⟨p1, k1⟩
  · exact h
  · have hsub1 : (allKeys { s with next := p1 }).Sublist (allKeys s) := by
      unfold allKeys
      dsimp only
      exact List.Sublist.append (List.Sublist.refl _)
        (((filterTracksExc_sublist search _ _ _ hf1).map _))
    rcases hf2 : filterTracksExc search s.nextSeek with e | ⟨p2, k2⟩
    · exact keysInv_sub s _ hsub1 rfl h
    · rcases hf3 : filterTracksExc search s.history with e | ⟨p3, k3⟩
      · exact keysInv_sub s _ hsub1 rfl h
      · have hsub2 : (allKeys { s with next := p1, nextSeek := p2, history := p3
            }).Sublist (allKeys s) := by
          unfold allKeys
          dsimp only
          refine List.Sublist.append (List.Sublist.append (List.Sublist.append
            ?_ (List.Sublist.refl _)) ?_) ?_
          · exact (filterTracksExc_sublist search _ _ _ hf3).map _
          · exact (filterTracksExc_sublist search _ _ _ hf2).map _
          · exact (filterTracksExc_sublist search _ _ _ hf1).map _
        have hk2 := keysInv_sub s _ hsub2 rfl h
        rcases hc : s.curr with _ | c
        · rw [hc] at hk2
          exact keysInv_refresh _ _ hk2
        · rw [hc] at hk2
          dsimp only
          rcases hrc : recursiveCompare (trackToJS c) search with e | bv
          · exact hk2
          · rcases bv with _ | _
            · exact keysInv_refresh _ _ hk2
            · refine keysInv_refresh _ _ ?_
              refine keysInv_sub
                { history := p3, curr := some c, nextSeek := p2, next := p1,
                  shuffleQueue := s.shuffleQueue, tracksKeyCounter := s.tracksKeyCounter,
                  seekSize := s.seekSize } _ ?_ rfl hk2
              unfold allKeys
              dsimp only
              simp only [Option.toList_some, Option.toList_none, List.map_cons,
                List.map_nil]
              refine List.Sublist.append (List.Sublist.append (List.Sublist.append
                (List.Sublist.refl _) ?_) (List.Sublist.refl _)) (List.Sublist.refl _)
              simp

theorem pushMany_fold_spec : ∀ (ts : List PrimTrack) (s : QState) (res : List Track),
    KeysInv s →
    KeysInv ((ts.foldl (fun (acc : QState × List Track) t =>
        let key := acc.1.tracksKeyCounter + 1
        let tr : Track := { key := key, src := t.src, data := t.data }
        ({ acc.1 with tracksKeyCounter := key, next := insertPool tr acc.1.next },
         acc.2 ++ [tr])) (s, res)).1) ∧
    ((ts.foldl (fun (acc : QState × List Track) t =>
        let key := acc.1.tracksKeyCounter + 1
        let tr : Track := { key := key, src := t.src, data := t.data }
        ({ acc.1 with tracksKeyCounter := key, next := insertPool tr acc.1.next },
         acc.2 ++ [tr])) (s, res)).1.tracksKeyCounter = s.tracksKeyCounter + ts.length) ∧
    ((ts.foldl (fun (acc : QState × List Track) t =>
        let key := acc.1.tracksKeyCounter + 1
        let tr : Track := { key := key, src := t.src, data := t.data }
        ({ acc.1 with tracksKeyCounter := key, next := insertPool tr acc.1.next },
         acc.2 ++ [tr])) (s, res)).2.map (fun u => u.key) =
      res.map (fun u => u.key) ++ List.range' (s.tracksKeyCounter + 1) ts.length) := by
  intro ts
  induction ts with
  | nil =>
    intro s res h
    exact ⟨h, rfl, by simp⟩
  | cons t ts ih =>
    intro s res h
    simp only [List.foldl_cons]
    have hstep := keysInv_poolInsert_step s t.src t.data h
    have hih := ih ({ s with tracksKeyCounter := s.tracksKeyCounter + 1,
                             next := insertPool ⟨s.tracksKeyCounter + 1, t.src, t.data⟩
                               s.next })
      (res ++ [⟨s.tracksKeyCounter + 1, t.src, t.data⟩]) hstep
    refine ⟨hih.1, ?_, ?_⟩
    · rw [hih.2.1]
      show s.tracksKeyCounter + 1 + ts.length = s.tracksKeyCounter + (t :: ts).length
      simp only [List.length_cons]
      omega
    · rw [hih.2.2]
      simp only [List.map_append, List.map_cons, List.map_nil, List.length_cons,
        List.append_assoc]
      rfl

theorem keysInv_pushMany (s : QState) (ts : List PrimTrack) (rz : Rnd) (h : KeysInv s) :
    KeysInv (pushMany s ts rz).1 :=
  keysInv_refresh _ rz (pushMany_fold_spec ts s [] h).1

theorem keysInv_init : KeysInv initQState := by
  constructor
  · simp [allKeys, initQState]
  · intro k hk
    simp [allKeys, initQState] at hk

theorem reachable_keysInv {s : QState} (h : Reachable s) : KeysInv s := by
  induction h with
  | init => exact keysInv_init
  | push t rz _ ihs => exact keysInv_push _ t rz ihs
  | pushMany ts rz _ ihs => exact keysInv_pushMany _ ts rz ihs
  | addNext t rz _ ihs => exact keysInv_addNext _ t rz ihs
  | pop _ ihs => exact keysInv_pop _ ihs
  | remove search rz _ ihs => exact keysInv_remove _ search rz ihs
  | clear _ _ => exact keysInv_clear _
  | next r _ ihs => exact keysInv_next _ r ihs
  | prev _ ihs => exact keysInv_prev _ ihs
  | reset rz _ ihs => exact keysInv_reset _ rz ihs
  | seekLen len rz _ ihs => exact keysInv_setSeekLength _ len rz ihs
  | defaultSeekLen rz _ ihs => exact keysInv_setDefaultSeekLength _ rz ihs
  | shuffle b rz _ ihs => exact keysInv_setShuffle _ b rz ihs

/-- Claim C9 (confirmed): on every reachable state the keys present anywhere in
history, current, lookahead and pool are pairwise distinct and bounded by the key
counter; `push` returns `counter+1` and advances the counter to it, and
`pushMany` returns tracks keyed `counter+1, ..., counter+n` and advances the
counter by `n` — so every key issued by a push is strictly greater than all
previously issued keys. -/
theorem key_uniqueness (s : QState) (h : Reachable s) (t : PrimTrack)
    (ts : List PrimTrack) (rz rz' : Rnd) :
    (allKeys s).Nodup ∧
    (∀ k ∈ allKeys s, k ≤ s.tracksKeyCounter) ∧
    (push s t rz).2.1 = s.tracksKeyCounter + 1 ∧
    (push s t rz).1.tracksKeyCounter = s.tracksKeyCounter + 1 ∧
    ((pushMany s ts rz').2.1.map (fun u => u.key) =
      List.range' (s.tracksKeyCounter + 1) ts.length) ∧
    (pushMany s ts rz').1.tracksKeyCounter = s.tracksKeyCounter + ts.length := by
  have hk := reachable_keysInv h
  refine ⟨hk.1, fun k hkmem => (hk.2 k hkmem).2, ?_, ?_, ?_, ?_⟩
  · show (refreshQueue _ rz).tracksKeyCounter = s.tracksKeyCounter + 1
    rw [refreshQueue_tracksKeyCounter]
  · show (refreshQueue _ rz).tracksKeyCounter = s.tracksKeyCounter + 1
    rw [refreshQueue_tracksKeyCounter]
  · have := (pushMany_fold_spec ts s [] hk).2.2
    simpa using this
  · show (refreshQueue _ rz').tracksKeyCounter = s.tracksKeyCounter + ts.length
    rw [refreshQueue_tracksKeyCounter]
    exact (pushMany_fold_spec ts s [] hk).2.1

theorem key_uniqueness_witness :
    (allKeys qs2).Nodup ∧
    (∀ k ∈ allKeys qs2, k ≤ qs2.tracksKeyCounter) ∧
    (push qs2 trackA rzNil).2.1 = qs2.tracksKeyCounter + 1 ∧
    (push qs2 trackA rzNil).1.tracksKeyCounter = qs2.tracksKeyCounter + 1 ∧
    ((pushMany qs2 [trackA, trackB] rzNil).2.1.map (fun u => u.key) =
      List.range' (qs2.tracksKeyCounter + 1) 2) ∧
    (pushMany qs2 [trackA, trackB] rzNil).1.tracksKeyCounter = qs2.tracksKeyCounter + 2 :=
  key_uniqueness qs2 qs2_reachable trackA [trackA, trackB] rzNil rzNil
